import Mathlib

/-!
Verification of the factory-graph synthesizer (`factory.ts`) against its design
specification.  The core algorithm (`produce`, `handleByproducts`,
`handleIndustryLinks`, `sanityCheck`, `buildFactory`) is embedded faithfully
from the source; the graph model and the item/recipe database it builds on are
external collaborators specified only at their interface, and are modelled from
the specification (all such definitions carry a `Modelled from the spec:`
comment).  Machine arithmetic on rates is embedded as exact rational
arithmetic.
-/

deriving instance DecidableEq for Except

attribute [local semireducible] Rat.mul Rat.add Rat.sub Rat.inv

namespace DuFactory

/-- Modelled from the spec: `MAX_CONTAINER_LINKS`, the fixed cap on a storage
node's incoming and on its outgoing link count (illustrated as 10 in the
specification's example scenarios). -/
def MAX_CONTAINER_LINKS : Nat := 10

/-- Modelled from the spec: `MAX_INDUSTRY_LINKS`, the fixed cap on a
fabrication node's (and a relay's) incoming link count, hinted at 7. -/
def MAX_INDUSTRY_LINKS : Nat := 7

/-- Items are identified by numeric ids; the external database classifies them. -/
abbrev Item := Nat

/-- One `{item, quantity}` entry of a recipe (product, ingredient or byproduct). -/
structure ItemQty where
  item : Item
  quantity : ℚ
  deriving DecidableEq, Inhabited

/-- Modelled from the spec: a recipe has a product, an ordered ingredient list,
a byproduct list and a duration per run. -/
structure Recipe where
  product : ItemQty
  ingredients : List ItemQty
  byproducts : List ItemQty
  time : ℚ
  deriving DecidableEq, Inhabited

/-- Modelled from the spec: the external item/recipe database (`items.ts` and
`recipes.ts` are not part of the core source).  `ores` lists the items
classified as Ore; `recipes` associates each craftable item with its recipe.
The store travels through the program state because JavaScript hands recipes
out by reference, so in-place edits are visible to later lookups. -/
structure ItemDatabase where
  ores : List Item
  recipes : List (Item × Recipe)
  deriving DecidableEq, Inhabited

/-- Modelled from the spec: `isOre(item)`. -/
def isOre (db : ItemDatabase) (it : Item) : Bool := db.ores.contains it

/-- Modelled from the spec: `findRecipe(item)` looks the recipe up by item.  An
item with no recipe is a caller precondition violation; the model returns a
default recipe there. -/
def findRecipe (db : ItemDatabase) (it : Item) : Recipe :=
  ((db.recipes.find? (fun p => p.1 = it)).map (fun p => p.2)).getD default

/-- Modelled from the spec: replacement of the stored recipe of `it` by `r`,
the effect an in-place mutation of the looked-up recipe object has under
JavaScript reference semantics. -/
def setRecipe (db : ItemDatabase) (it : Item) (r : Recipe) : ItemDatabase :=
  { db with recipes := db.recipes.map (fun p => if p.1 = it then (p.1, r) else p) }

/-- Reference to a node that can produce into or consume from a container: an
industry (fabrication node) or a transfer unit (relay), by creation index. -/
inductive NodeRef where
  | industry (i : Nat)
  | transferUnit (i : Nat)
  deriving DecidableEq, Inhabited

/-- Reference to an input of an industry: a container or a transfer container. -/
inductive InputRef where
  | container (i : Nat)
  | transferContainer (i : Nat)
  deriving DecidableEq, Inhabited

/-- Modelled from the spec: a storage node buffers one item and records its
split flag and split fraction, the delivery rate and maintained quantity when
it is an output node, and the insertion-ordered, duplicate-free producer and
consumer reference sets.  Link counts, ingress and egress are derived views
kept in sync by the attach operations. -/
structure ContainerNode where
  item : Item
  isSplit : Bool
  split : ℚ
  outputRate : ℚ
  maintain : ℚ
  producers : List NodeRef
  consumers : List NodeRef
  deriving DecidableEq, Inhabited

/-- Modelled from the spec: a fabrication node runs one recipe instance. -/
structure IndustryNode where
  item : Item
  inputs : List InputRef
  output : Option Nat
  deriving DecidableEq, Inhabited

/-- Modelled from the spec: a relay (transfer unit) moves one item from its
input containers to its single output. -/
structure TransferNode where
  item : Item
  inputs : List Nat
  output : Option InputRef
  deriving DecidableEq, Inhabited

/-- Modelled from the spec: a relay-storage (transfer container) node holds a
fixed item set, is fed by dedicated relays and feeds industries. -/
structure TransferContainerNode where
  items : List Item
  producers : List Nat
  consumers : List Nat
  deriving DecidableEq, Inhabited

/-- Modelled from the spec: the registry owning every node, in creation order. -/
structure FactoryGraph where
  containers : List ContainerNode
  industries : List IndustryNode
  transferUnits : List TransferNode
  transferContainers : List TransferContainerNode
  deriving DecidableEq, Inhabited

def emptyFactory : FactoryGraph := ⟨[], [], [], []⟩

def ContainerNode.incomingLinkCount (c : ContainerNode) : Nat := c.producers.length

def ContainerNode.outgoingLinkCount (c : ContainerNode) : Nat := c.consumers.length

/-- Modelled from the spec: capacity predicate for a container's incoming
links.  The probe count is an integer because the synthesizer may probe with a
non-positive count. -/
def ContainerNode.canAddIncomingLinks (c : ContainerNode) (n : ℤ) : Bool :=
  (c.producers.length : ℤ) + n ≤ (MAX_CONTAINER_LINKS : ℤ)

/-- Modelled from the spec: capacity predicate for a container's outgoing links. -/
def ContainerNode.canAddOutgoingLinks (c : ContainerNode) (n : ℤ) : Bool :=
  (c.consumers.length : ℤ) + n ≤ (MAX_CONTAINER_LINKS : ℤ)

/-- Modelled from the spec: capacity predicate for a relay's incoming links. -/
def TransferNode.canAddIncomingLinks (t : TransferNode) (n : ℤ) : Bool :=
  (t.inputs.length : ℤ) + n ≤ (MAX_INDUSTRY_LINKS : ℤ)

/-- Modelled from the spec: capacity predicates for a transfer container. -/
def TransferContainerNode.canAddOutgoingLinks (tc : TransferContainerNode) (n : ℤ) : Bool :=
  (tc.consumers.length : ℤ) + n ≤ (MAX_CONTAINER_LINKS : ℤ)

def TransferContainerNode.canAddIncomingLinks (tc : TransferContainerNode) (n : ℤ) : Bool :=
  (tc.producers.length : ℤ) + n ≤ (MAX_CONTAINER_LINKS : ℤ)

/-- Item produced (industry) or carried (relay) by a producer/consumer
reference. -/
def refItem (g : FactoryGraph) (r : NodeRef) : Item :=
  match r with
  | .industry i => (g.industries.getD i default).item
  | .transferUnit i => (g.transferUnits.getD i default).item

/-- Modelled from the spec: the production rate a producer contributes to a
container: an industry produces `productQuantity / time` of its recipe.  The
spec assigns no flow rate to relay links, so they contribute none. -/
def producerRate (db : ItemDatabase) (g : FactoryGraph) (r : NodeRef) : ℚ :=
  match r with
  | .industry i =>
      let rcp := findRecipe db (g.industries.getD i default).item
      rcp.product.quantity / rcp.time
  | .transferUnit _ => 0

/-- Modelled from the spec: the rate a consumer draws from a container: an
industry draws `ingredientQuantity / time` for the container's item scaled by
the container's split fraction (the proportion of total demand a split node is
responsible for); relay links draw none. -/
def consumerRate (db : ItemDatabase) (g : FactoryGraph) (c : ContainerNode) (r : NodeRef) : ℚ :=
  match r with
  | .industry i =>
      let rcp := findRecipe db (g.industries.getD i default).item
      match rcp.ingredients.find? (fun iq => iq.item = c.item) with
      | some iq => iq.quantity / rcp.time * c.split
      | none => 0
  | .transferUnit _ => 0

/-- Modelled from the spec: egress is the sum of the outgoing flow rates, the
delivery rate of an output node plus what each consumer draws. -/
def egress (db : ItemDatabase) (g : FactoryGraph) (c : ContainerNode) : ℚ :=
  c.outputRate + (c.consumers.map (consumerRate db g c)).sum

/-- Modelled from the spec: ingress is the sum of the incoming flow rates.
Ores are assumed externally supplied, so an ore container's supply matches
whatever is drawn from it. -/
def ingress (db : ItemDatabase) (g : FactoryGraph) (c : ContainerNode) : ℚ :=
  if isOre db c.item then egress db g c
  else (c.producers.map (producerRate db g)).sum

/-- Modelled from the spec: `getContainers(item)` returns the storage nodes of
an item in creation order, as indices into the registry. -/
def getContainers (g : FactoryGraph) (it : Item) : List Nat :=
  (List.range g.containers.length).filter (fun i => (g.containers.getD i default).item = it)

/-- Modelled from the spec: `getTransferUnits(item)` in creation order. -/
def getTransferUnits (g : FactoryGraph) (it : Item) : List Nat :=
  (List.range g.transferUnits.length).filter (fun i => (g.transferUnits.getD i default).item = it)

/-- Modelled from the spec: `getTransferContainers(itemSet)` returns the
transfer containers whose item set is contained in the given set, in creation
order. -/
def getTransferContainers (g : FactoryGraph) (items : List Item) : List Nat :=
  (List.range g.transferContainers.length).filter
    (fun i => (g.transferContainers.getD i default).items.all (fun it => items.contains it))

/-- Modelled from the spec: `createContainer(item)`. -/
def createContainer (g : FactoryGraph) (it : Item) : FactoryGraph × Nat :=
  let c : ContainerNode := ⟨it, false, 1, 0, 0, [], []⟩
  ({ g with containers := g.containers ++ [c] }, g.containers.length)

/-- Modelled from the spec: `createSplitContainer(item, split)`. -/
def createSplitContainer (g : FactoryGraph) (it : Item) (split : ℚ) : FactoryGraph × Nat :=
  let c : ContainerNode := ⟨it, true, split, 0, 0, [], []⟩
  ({ g with containers := g.containers ++ [c] }, g.containers.length)

/-- Modelled from the spec: `createOutput(item, rate, maintain)` creates the
terminal output node of a requirement, sized to the given delivery rate and
maintained quantity. -/
def createOutput (g : FactoryGraph) (it : Item) (rate maintain : ℚ) : FactoryGraph × Nat :=
  let c : ContainerNode := ⟨it, false, 1, rate, maintain, [], []⟩
  ({ g with containers := g.containers ++ [c] }, g.containers.length)

/-- Modelled from the spec: `createIndustry(item)`. -/
def createIndustry (g : FactoryGraph) (it : Item) : FactoryGraph × Nat :=
  ({ g with industries := g.industries ++ [{ item := it, inputs := [], output := none }] },
   g.industries.length)

/-- Modelled from the spec: `createTransferUnit(item)`. -/
def createTransferUnit (g : FactoryGraph) (it : Item) : FactoryGraph × Nat :=
  ({ g with transferUnits := g.transferUnits ++ [{ item := it, inputs := [], output := none }] },
   g.transferUnits.length)

/-- Modelled from the spec: `createTransferContainer(items)`. -/
def createTransferContainer (g : FactoryGraph) (items : List Item) : FactoryGraph × Nat :=
  ({ g with transferContainers :=
      g.transferContainers ++ [{ items := items, producers := [], consumers := [] }] },
   g.transferContainers.length)

/-- Failure conditions: a violated capacity limit at link-attach time, the
Link-Limit Resolver's fatal inconsistency, the validator's four checks, and
exhaustion of the recursion fuel of the shallow embedding. -/
inductive Err where
  | capacityExceeded
  | unableToTransferItem
  | containerIncomingOverflow
  | containerOutgoingOverflow
  | egressExceedsIngress
  | splitManyOutgoing
  | industryIncomingOverflow
  | outOfFuel
  deriving DecidableEq, Inhabited

/-- Sequencing of fallible steps: run the rest on success, propagate the
failure otherwise. -/
def bindE {α β : Type} (x : Except Err α) (f : α → Except Err β) : Except Err β :=
  match x with
  | .ok a => f a
  | .error e => .error e

/-- Insertion-ordered set insert: append unless already present (JavaScript
`Set.add`). -/
def insertRef {α : Type} [DecidableEq α] (l : List α) (a : α) : List α :=
  if a ∈ l then l else l ++ [a]

def setContainer (g : FactoryGraph) (i : Nat) (c : ContainerNode) : FactoryGraph :=
  { g with containers := g.containers.set i c }

def setIndustry (g : FactoryGraph) (i : Nat) (ind : IndustryNode) : FactoryGraph :=
  { g with industries := g.industries.set i ind }

def setTransferUnit (g : FactoryGraph) (i : Nat) (t : TransferNode) : FactoryGraph :=
  { g with transferUnits := g.transferUnits.set i t }

def setTransferContainer (g : FactoryGraph) (i : Nat) (tc : TransferContainerNode) : FactoryGraph :=
  { g with transferContainers := g.transferContainers.set i tc }

/-- Modelled from the spec: `industry.outputTo(container)` attaches the
industry as a producer of the container after checking the container's incoming
capacity; a violated limit fails with `capacityExceeded`. -/
def industryOutputTo (g : FactoryGraph) (ind cont : Nat) : Except Err FactoryGraph :=
  if (g.containers.getD cont default).canAddIncomingLinks 1 then
    .ok (setContainer
      (setIndustry g ind { g.industries.getD ind default with output := some cont })
      cont { g.containers.getD cont default with
        producers := insertRef (g.containers.getD cont default).producers (.industry ind) })
  else .error .capacityExceeded

/-- Modelled from the spec: `industry.takeFrom(container)` attaches a container
as an input of the industry after checking the container's outgoing capacity.
The industry's own incoming cap is deliberately not enforced here: the spec
says it is enforced post hoc by the Link-Limit Resolver, not at creation time. -/
def industryTakeFromContainer (g : FactoryGraph) (ind cont : Nat) : Except Err FactoryGraph :=
  if (g.containers.getD cont default).canAddOutgoingLinks 1 then
    .ok (setContainer
      (setIndustry g ind { g.industries.getD ind default with
        inputs := insertRef (g.industries.getD ind default).inputs (.container cont) })
      cont { g.containers.getD cont default with
        consumers := insertRef (g.containers.getD cont default).consumers (.industry ind) })
  else .error .capacityExceeded

/-- Modelled from the spec: `industry.takeFrom(transferContainer)` attaches a
transfer container as an input of the industry after checking the transfer
container's outgoing capacity. -/
def industryTakeFromTransferContainer (g : FactoryGraph) (ind tc : Nat) : Except Err FactoryGraph :=
  if (g.transferContainers.getD tc default).canAddOutgoingLinks 1 then
    .ok (setTransferContainer
      (setIndustry g ind { g.industries.getD ind default with
        inputs := insertRef (g.industries.getD ind default).inputs (.transferContainer tc) })
      tc { g.transferContainers.getD tc default with
        consumers := insertRef (g.transferContainers.getD tc default).consumers ind })
  else .error .capacityExceeded

/-- Modelled from the spec: `transferUnit.takeFrom(container)` attaches the
container as an input of the relay, checking the container's outgoing capacity
and the relay's incoming capacity. -/
def transferTakeFrom (g : FactoryGraph) (t cont : Nat) : Except Err FactoryGraph :=
  if (g.containers.getD cont default).canAddOutgoingLinks 1
      && (g.transferUnits.getD t default).canAddIncomingLinks 1 then
    .ok (setContainer
      (setTransferUnit g t { g.transferUnits.getD t default with
        inputs := insertRef (g.transferUnits.getD t default).inputs cont })
      cont { g.containers.getD cont default with
        consumers := insertRef (g.containers.getD cont default).consumers (.transferUnit t) })
  else .error .capacityExceeded

/-- Modelled from the spec: `transferUnit.outputTo(container)`. -/
def transferOutputToContainer (g : FactoryGraph) (t cont : Nat) : Except Err FactoryGraph :=
  if (g.containers.getD cont default).canAddIncomingLinks 1 then
    .ok (setContainer
      (setTransferUnit g t { g.transferUnits.getD t default with
        output := some (.container cont) })
      cont { g.containers.getD cont default with
        producers := insertRef (g.containers.getD cont default).producers (.transferUnit t) })
  else .error .capacityExceeded

/-- Modelled from the spec: `transferUnit.outputTo(transferContainer)`. -/
def transferOutputToTransferContainer (g : FactoryGraph) (t tc : Nat) : Except Err FactoryGraph :=
  if (g.transferContainers.getD tc default).canAddIncomingLinks 1 then
    .ok (setTransferContainer
      (setTransferUnit g t { g.transferUnits.getD t default with
        output := some (.transferContainer tc) })
      tc { g.transferContainers.getD tc default with
        producers := insertRef (g.transferContainers.getD tc default).producers t })
  else .error .capacityExceeded

/-- Type of the recursive synthesizer threaded through the loop helpers. -/
abbrev ProduceFun := Item → ℚ → FactoryGraph → Except Err (List Nat × FactoryGraph)

/-- Loop `for (const input of inputs) industry.takeFrom(input)` from `produce`
and `buildFactory` (`factory.ts` lines 92-94 and 295-297). -/
def inputsLoop (ind : Nat) : List Nat → FactoryGraph → Except Err FactoryGraph
  | [], g => .ok g
  | i :: rest, g =>
    bindE (industryTakeFromContainer g ind i) (fun g1 => inputsLoop ind rest g1)

/-- Loop over `recipe.ingredients`: recursively produce each ingredient at rate
`quantity / time` and take from every returned container (`factory.ts` lines
90-95). -/
def ingredientsLoop (produceF : ProduceFun) (ind : Nat) (time : ℚ) :
    List ItemQty → FactoryGraph → Except Err FactoryGraph
  | [], g => .ok g
  | iq :: rest, g =>
    bindE (produceF iq.item (iq.quantity / time) g) (fun p =>
      bindE (inputsLoop ind p.1 p.2) (fun g2 =>
        ingredientsLoop produceF ind time rest g2))

/-- Loop `for (let i = 0; i < additionalIndustries; i++)` of `produce`
(`factory.ts` lines 86-96), also used by the orchestrator with a single
output: create an industry, wire its output round-robin over `outputs`, then
recurse into the ingredients. -/
def industriesLoop (produceF : ProduceFun) (it : Item) (rcp : Recipe) (outputs : List Nat) :
    Nat → Nat → FactoryGraph → Except Err FactoryGraph
  | 0, _, g => .ok g
  | count+1, i, g =>
    let p := createIndustry g it
    bindE (industryOutputTo p.1 p.2 (outputs.getD (i % outputs.length) 0)) (fun g1 =>
      bindE (ingredientsLoop produceF p.2 rcp.time rcp.ingredients g1) (fun g2 =>
        industriesLoop produceF it rcp outputs count (i+1) g2))

/-- Loop creating the split containers (`factory.ts` lines 75-80): each takes
`min(evenLinks, linksRemaining)` links and the split fraction
`numLinks / additionalIndustries`. -/
def splitLoop (it : Item) (additionalIndustries evenLinks : ℤ) :
    Nat → ℤ → FactoryGraph → List Nat → FactoryGraph × List Nat
  | 0, _, g, acc => (g, acc)
  | count+1, linksRemaining, g, acc =>
    let numLinks := min evenLinks linksRemaining
    let split := (numLinks : ℚ) / (additionalIndustries : ℚ)
    let p := createSplitContainer g it split
    splitLoop it additionalIndustries evenLinks count (linksRemaining - numLinks) p.1 (acc ++ [p.2])

/-- First-fit scan of `produce` step 3 (`factory.ts` lines 52-63): the first
existing container whose incoming capacity fits the additional industries
needed to cover the shortfall and which still has outgoing capacity, together
with that additional-industry count. -/
def findGrowableContainer (db : ItemDatabase) (g : FactoryGraph) (rcp : Recipe) (rate : ℚ) :
    List Nat → Option (Nat × ℤ)
  | [] => none
  | i :: rest =>
    let c := g.containers.getD i default
    let a := ⌈(rate + egress db g c - ingress db g c) / (rcp.product.quantity / rcp.time)⌉
    if c.canAddIncomingLinks a && c.canAddOutgoingLinks 1 then some (i, a)
    else findGrowableContainer db g rcp rate rest

/-- The recursive Production Synthesizer `produce(item, rate, factory)` of
`factory.ts` (lines 27-98), embedded with explicit recursion fuel. -/
def produce (db : ItemDatabase) : Nat → Item → ℚ → FactoryGraph → Except Err (List Nat × FactoryGraph)
  | 0, _, _, _ => .error .outOfFuel
  | fuel+1, it, rate, g =>
    let containers := getContainers g it
    if isOre db it then
      match containers.find? (fun i => (g.containers.getD i default).canAddOutgoingLinks 1) with
      | some i => .ok ([i], g)
      | none =>
        let p := createContainer g it
        .ok ([p.2], p.1)
    else
      match containers.find? (fun i =>
          let c := g.containers.getD i default
          decide (egress db g c + rate < ingress db g c) && c.canAddOutgoingLinks 1) with
      | some i => .ok ([i], g)
      | none =>
        let rcp := findRecipe db it
        match findGrowableContainer db g rcp rate containers with
        | some pa =>
          bindE (industriesLoop (fun it2 r2 g2 => produce db fuel it2 r2 g2)
              it rcp [pa.1] pa.2.toNat 0 g) (fun g1 => .ok ([pa.1], g1))
        | none =>
          let a := ⌈rate / (rcp.product.quantity / rcp.time)⌉
          if (MAX_CONTAINER_LINKS : ℤ) < a then
            let numContainers := ⌈(a : ℚ) / (MAX_CONTAINER_LINKS : ℚ)⌉
            let evenLinks := ⌈(a : ℚ) / (numContainers : ℚ)⌉
            let p := splitLoop it a evenLinks numContainers.toNat a g []
            bindE (industriesLoop (fun it2 r2 g2 => produce db fuel it2 r2 g2)
                it rcp p.2 a.toNat 0 p.1) (fun g1 => .ok (p.2, g1))
          else
            let p := createContainer g it
            bindE (industriesLoop (fun it2 r2 g2 => produce db fuel it2 r2 g2)
                it rcp [p.2] a.toNat 0 p.1) (fun g1 => .ok ([p.2], g1))

/-- Candidate search of the Byproduct Reconciler over existing relays
(`factory.ts` lines 123-128): the loop has no break, so the last relay with
incoming headroom wins. -/
def pickLastTransfer (g : FactoryGraph) (idxs : List Nat) : Option Nat :=
  idxs.foldl (fun acc t =>
    if (g.transferUnits.getD t default).canAddIncomingLinks 1 then some t else acc) none

/-- Candidate search of the Byproduct Reconciler over existing containers
(`factory.ts` lines 133-139): the loop has no break, so the last container
with incoming headroom wins. -/
def pickLastContainer (g : FactoryGraph) (idxs : List Nat) : Option Nat :=
  idxs.foldl (fun acc i =>
    if (g.containers.getD i default).canAddIncomingLinks 1 then some i else acc) none

/-- Loop of the Byproduct Reconciler over one container's byproducts
(`factory.ts` lines 112-148). -/
def byproductsLoop (db : ItemDatabase) (cIdx : Nat) :
    List ItemQty → FactoryGraph → Except Err FactoryGraph
  | [], g => .ok g
  | b :: rest, g =>
    let c := g.containers.getD cIdx default
    if c.consumers.any (fun r => refItem g r = b.item) then byproductsLoop db cIdx rest g
    else
      match pickLastTransfer g (getTransferUnits g b.item) with
      | some t =>
        bindE (transferTakeFrom g t cIdx) (fun g1 => byproductsLoop db cIdx rest g1)
      | none =>
        let p := createTransferUnit g b.item
        let q : FactoryGraph × Nat :=
          match pickLastContainer p.1 (getContainers p.1 b.item) with
          | some i => (p.1, i)
          | none => createContainer p.1 b.item
        bindE (transferOutputToContainer q.1 p.2 q.2) (fun g1 =>
          bindE (transferTakeFrom g1 p.2 cIdx) (fun g2 =>
            byproductsLoop db cIdx rest g2))

/-- Pass of the Byproduct Reconciler over the growing container registry;
containers appended during the pass are visited too, as JavaScript iteration
over a growing collection does.  Fuel bounds the iteration because the
registry grows while it is being traversed. -/
def handleByproductsGo (db : ItemDatabase) : Nat → Nat → FactoryGraph → Except Err FactoryGraph
  | 0, _, _ => .error .outOfFuel
  | fuel+1, i, g =>
    if i < g.containers.length then
      let c := g.containers.getD i default
      if isOre db c.item then handleByproductsGo db fuel (i+1) g
      else
        bindE (byproductsLoop db i (findRecipe db c.item).byproducts g) (fun g1 =>
          handleByproductsGo db fuel (i+1) g1)
    else .ok g

/-- The Byproduct Reconciler `handleByproducts(factory)` of `factory.ts`
(lines 104-150). -/
def handleByproducts (db : ItemDatabase) (fuel : Nat) (g : FactoryGraph) : Except Err FactoryGraph :=
  handleByproductsGo db fuel 0 g

/-- Stable insertion of an entry into a quantity-sorted ingredient list:
entries with strictly smaller quantity stay in front, entries with equal
quantity keep their original relative order. -/
def insertByQuantity (a : ItemQty) : List ItemQty → List ItemQty
  | [] => [a]
  | b :: rest =>
    if b.quantity < a.quantity then b :: insertByQuantity a rest else a :: b :: rest

/-- Stable sort of an ingredient list by ascending quantity: the result of
`ingredients.sort((a, b) => a.quantity - b.quantity)` (`factory.ts` line 164;
JavaScript `Array.prototype.sort` is stable, and stable sorts agree
extensionally, so a structural insertion sort embeds it). -/
def sortByQuantity : List ItemQty → List ItemQty
  | [] => []
  | a :: rest => insertByQuantity a (sortByQuantity rest)

/-- The matching test of the rewiring loop (`factory.ts` lines 214-218): a
direct (non-transfer-container) input holding the relay's item. -/
def rewireMatch (g : FactoryGraph) (t : Nat) (r : InputRef) : Bool :=
  match r with
  | .container ci =>
    decide ((g.containers.getD ci default).item = (g.transferUnits.getD t default).item)
  | .transferContainer _ => false

/-- Removal of both directions of a direct container→industry link
(`factory.ts` lines 219-220): `container.consumers.delete(industry)` and
`industry.inputs.delete(container)`. -/
def detachInput (g : FactoryGraph) (indIdx ci : Nat) : FactoryGraph :=
  setIndustry
    (setContainer g ci { g.containers.getD ci default with
      consumers := (g.containers.getD ci default).consumers.erase (.industry indIdx) })
    indIdx { g.industries.getD indIdx default with
      inputs := (g.industries.getD indIdx default).inputs.erase (.container ci) }

/-- Rewiring loop of the Link-Limit Resolver (`factory.ts` lines 212-231): for
each relay feeding the chosen transfer container, find the industry's first
direct (non-transfer-container) input holding the relay's item, remove both
directions of that link and attach the container to the relay instead; a relay
whose item matches no direct input is a fatal inconsistency. -/
def rewireLoop (indIdx : Nat) : List Nat → FactoryGraph → Except Err FactoryGraph
  | [], g => .ok g
  | t :: rest, g =>
    match (g.industries.getD indIdx default).inputs.find? (rewireMatch g t) with
    | some (InputRef.container ci) =>
      bindE (transferTakeFrom (detachInput g indIdx ci) t ci)
        (fun g3 => rewireLoop indIdx rest g3)
    | _ => .error .unableToTransferItem

/-- Creation of one dedicated relay per covered item of a fresh transfer
container, each wired into it (`factory.ts` lines 204-207). -/
def tcUnitsLoop : List Item → Nat → FactoryGraph → Except Err FactoryGraph
  | [], _, g => .ok g
  | it :: rest, tcIdx, g =>
    let p := createTransferUnit g it
    bindE (transferOutputToTransferContainer p.1 p.2 tcIdx) (fun g1 =>
      tcUnitsLoop rest tcIdx g1)

/-- One industry's pass of the Link-Limit Resolver (`factory.ts` lines
159-236): sort the recipe's ingredient array by quantity in place (mutating
the stored recipe, as `Array.prototype.sort` does), then if the industry's
incoming links exceed the cap, pick or create a transfer container and rewire
the lowest-quantity ingredients through it. -/
def handleIndustryLinksStep (s : ItemDatabase × FactoryGraph) (indIdx : Nat) :
    Except Err (ItemDatabase × FactoryGraph) :=
  let g := s.2
  let ind := g.industries.getD indIdx default
  let rcp := findRecipe s.1 ind.item
  let sorted := { rcp with ingredients := sortByQuantity rcp.ingredients }
  let db := setRecipe s.1 ind.item sorted
  let ingredients := sorted.ingredients.map (fun iq => iq.item)
  let exceedingLinks : ℤ := (ind.inputs.length : ℤ) - (MAX_INDUSTRY_LINKS : ℤ)
  if 0 < exceedingLinks then
    let chosen := (getTransferContainers g ingredients).find? (fun i =>
      let tc := g.transferContainers.getD i default
      !((tc.items.length : ℤ) < exceedingLinks + 1) &&
      tc.canAddOutgoingLinks 1 &&
      tc.producers.all (fun t => (g.transferUnits.getD t default).canAddIncomingLinks 1))
    match chosen with
    | some tcIdx =>
      bindE (rewireLoop indIdx (g.transferContainers.getD tcIdx default).producers g) (fun g1 =>
        bindE (industryTakeFromTransferContainer g1 indIdx tcIdx) (fun g2 => .ok (db, g2)))
    | none =>
      let items := ingredients.take (exceedingLinks + 1).toNat
      let p := createTransferContainer g items
      bindE (tcUnitsLoop items p.2 p.1) (fun g1 =>
        bindE (rewireLoop indIdx (g1.transferContainers.getD p.2 default).producers g1) (fun g2 =>
          bindE (industryTakeFromTransferContainer g2 indIdx p.2) (fun g3 => .ok (db, g3))))
  else .ok (db, g)

/-- Fold of the Link-Limit Resolver over all industries (their registry does
not grow during this pass). -/
def handleIndustryLinksGo : List Nat → ItemDatabase × FactoryGraph → Except Err (ItemDatabase × FactoryGraph)
  | [], s => .ok s
  | i :: rest, s =>
    bindE (handleIndustryLinksStep s i) (fun s1 => handleIndustryLinksGo rest s1)

/-- The Link-Limit Resolver `handleIndustryLinks(factory)` of `factory.ts`
(lines 157-237). -/
def handleIndustryLinks (db : ItemDatabase) (g : FactoryGraph) :
    Except Err (ItemDatabase × FactoryGraph) :=
  handleIndustryLinksGo (List.range g.industries.length) (db, g)

/-- Check of one storage node by the validator (`factory.ts` lines 246-263),
failing with the first violated invariant in source order. -/
def checkContainer (db : ItemDatabase) (g : FactoryGraph) (c : ContainerNode) : Except Err Unit :=
  if MAX_CONTAINER_LINKS < c.incomingLinkCount then .error .containerIncomingOverflow
  else if MAX_CONTAINER_LINKS < c.outgoingLinkCount then .error .containerOutgoingOverflow
  else if ingress db g c < egress db g c then .error .egressExceedsIngress
  else if c.isSplit && decide (1 < c.outgoingLinkCount) then .error .splitManyOutgoing
  else .ok ()

def checkContainersLoop (db : ItemDatabase) (g : FactoryGraph) :
    List ContainerNode → Except Err Unit
  | [] => .ok ()
  | c :: rest =>
    bindE (checkContainer db g c) (fun _ => checkContainersLoop db g rest)

/-- Check of the fabrication nodes by the validator (`factory.ts` lines
265-270). -/
def checkIndustriesLoop : List IndustryNode → Except Err Unit
  | [] => .ok ()
  | ind :: rest =>
    if MAX_INDUSTRY_LINKS < ind.inputs.length then .error .industryIncomingOverflow
    else checkIndustriesLoop rest

/-- The validator `sanityCheck(factory)` of `factory.ts` (lines 244-271). -/
def sanityCheck (db : ItemDatabase) (g : FactoryGraph) : Except Err Unit :=
  bindE (checkContainersLoop db g g.containers) (fun _ => checkIndustriesLoop g.industries)

/-- One requirement entry: item, industry count and maintained quantity.  The
requirement map iterates in the caller-supplied insertion order, so it is
embedded as a list. -/
structure Requirement where
  item : Item
  count : Nat
  maintain : ℚ
  deriving DecidableEq, Inhabited

/-- Requirement loop of the orchestrator (`factory.ts` lines 282-300): one
output node per requirement and `count` industries feeding it, recursing into
the ingredients. -/
def requirementsLoop (db : ItemDatabase) (fuel : Nat) :
    List Requirement → FactoryGraph → Except Err FactoryGraph
  | [], g => .ok g
  | req :: rest, g =>
    let rcp := findRecipe db req.item
    let rate := rcp.product.quantity / rcp.time
    let p := createOutput g req.item (rate * (req.count : ℚ)) req.maintain
    bindE (industriesLoop (fun it2 r2 g2 => produce db fuel it2 r2 g2)
        req.item rcp [p.2] req.count 0 p.1) (fun g1 => requirementsLoop db fuel rest g1)

/-- The orchestrator `buildFactory(requirements)` of `factory.ts` (lines
278-308): synthesize every requirement, then run the Byproduct Reconciler, the
Link-Limit Resolver and the validator in that order.  The final state of the
recipe store is returned alongside the graph so that effects on the external
database stay observable. -/
def buildFactory (db : ItemDatabase) (fuel : Nat) (reqs : List Requirement) :
    Except Err (FactoryGraph × ItemDatabase) :=
  bindE (requirementsLoop db fuel reqs emptyFactory) (fun g =>
    bindE (handleByproducts db fuel g) (fun g1 =>
      bindE (handleIndustryLinks db g1) (fun s =>
        bindE (sanityCheck s.1 s.2) (fun _ => .ok (s.2, s.1)))))

/-! ## Sequencing facts -/

@[simp] theorem bindE_okArg {α β : Type} (a : α) (f : α → Except Err β) :
    bindE (.ok a) f = f a := rfl

@[simp] theorem bindE_errorArg {α β : Type} (e : Err) (f : α → Except Err β) :
    bindE (.error e) f = .error e := rfl

theorem bindE_eq_ok {α β : Type} {x : Except Err α} {f : α → Except Err β} {b : β}
    (h : bindE x f = .ok b) : ∃ a, x = .ok a ∧ f a = .ok b := by
  cases x with
  | ok a => exact ⟨a, rfl, h⟩
  | error e => exact absurd h (by simp)

/-! ## Declarative form of the validator -/

/-- The validator's invariant, stated declaratively: every storage node is
within both link caps and flow-conserving, a split node has at most one
outgoing link, and every fabrication node is within the incoming cap. -/
def GraphValid (db : ItemDatabase) (g : FactoryGraph) : Prop :=
  (∀ c ∈ g.containers,
      c.incomingLinkCount ≤ MAX_CONTAINER_LINKS ∧
      c.outgoingLinkCount ≤ MAX_CONTAINER_LINKS ∧
      egress db g c ≤ ingress db g c ∧
      (c.isSplit = true → c.outgoingLinkCount ≤ 1)) ∧
  (∀ ind ∈ g.industries, ind.inputs.length ≤ MAX_INDUSTRY_LINKS)

theorem checkContainer_ok_iff (db : ItemDatabase) (g : FactoryGraph) (c : ContainerNode) :
    checkContainer db g c = .ok () ↔
      (c.incomingLinkCount ≤ MAX_CONTAINER_LINKS ∧
       c.outgoingLinkCount ≤ MAX_CONTAINER_LINKS ∧
       egress db g c ≤ ingress db g c ∧
       (c.isSplit = true → c.outgoingLinkCount ≤ 1)) := by
  unfold checkContainer
  split_ifs with h1 h2 h3 h4
  · constructor
    · intro h; exact absurd h (by simp)
    · intro h; exact absurd h1 (Nat.not_lt.mpr h.1)
  · constructor
    · intro h; exact absurd h (by simp)
    · intro h; exact absurd h2 (Nat.not_lt.mpr h.2.1)
  · constructor
    · intro h; exact absurd h (by simp)
    · intro h; exact absurd h3 (not_lt.mpr h.2.2.1)
  · simp only [Bool.and_eq_true, decide_eq_true_eq] at h4
    constructor
    · intro h; exact absurd h (by simp)
    · intro h; exact absurd (h.2.2.2 h4.1) (by omega)
  · simp only [Bool.and_eq_true, decide_eq_true_eq, not_and, not_lt] at h4
    constructor
    · intro _
      exact ⟨Nat.not_lt.mp h1, Nat.not_lt.mp h2, not_lt.mp h3, fun hs => h4 hs⟩
    · intro _; rfl

theorem checkContainersLoop_ok_iff (db : ItemDatabase) (g : FactoryGraph)
    (l : List ContainerNode) :
    checkContainersLoop db g l = .ok () ↔ ∀ c ∈ l, checkContainer db g c = .ok () := by
  induction l with
  | nil => simp [checkContainersLoop]
  | cons c rest ih =>
    cases hc : checkContainer db g c with
    | error e =>
      simp only [checkContainersLoop, hc, bindE_errorArg]
      constructor
      · intro h; exact absurd h (by simp)
      · intro h
        have hcc := h c (by simp)
        rw [hc] at hcc
        exact absurd hcc (by simp)
    | ok u =>
      cases u
      simp only [checkContainersLoop, hc, bindE_okArg]
      rw [ih]
      constructor
      · intro h c2 hc2
        rcases List.mem_cons.mp hc2 with h1 | h1
        · rw [h1]; exact hc
        · exact h c2 h1
      · intro h c2 hc2; exact h c2 (List.mem_cons_of_mem _ hc2)

theorem checkIndustriesLoop_ok_iff (l : List IndustryNode) :
    checkIndustriesLoop l = .ok () ↔ ∀ ind ∈ l, ind.inputs.length ≤ MAX_INDUSTRY_LINKS := by
  induction l with
  | nil => simp [checkIndustriesLoop]
  | cons ind rest ih =>
    simp only [checkIndustriesLoop]
    split_ifs with h
    · constructor
      · intro hh; exact absurd hh (by simp)
      · intro hall; exact absurd h (Nat.not_lt.mpr (hall ind (by simp)))
    · rw [ih]
      constructor
      · intro hall c2 hc2
        rcases List.mem_cons.mp hc2 with h1 | h1
        · rw [h1]; omega
        · exact hall c2 h1
      · intro hall c2 hc2; exact hall c2 (List.mem_cons_of_mem _ hc2)

theorem sanityCheck_ok_iff (db : ItemDatabase) (g : FactoryGraph) :
    sanityCheck db g = .ok () ↔ GraphValid db g := by
  unfold sanityCheck GraphValid
  cases hc : checkContainersLoop db g g.containers with
  | error e =>
    simp only [hc, bindE_errorArg]
    constructor
    · intro h; exact absurd h (by simp)
    · intro h
      have hok := (checkContainersLoop_ok_iff db g g.containers).mpr
        (fun c hcm => (checkContainer_ok_iff db g c).mpr (h.1 c hcm))
      rw [hc] at hok
      exact absurd hok (by simp)
  | ok u =>
    cases u
    simp only [hc, bindE_okArg]
    rw [checkIndustriesLoop_ok_iff]
    have hcont := (checkContainersLoop_ok_iff db g g.containers).mp hc
    constructor
    · intro h
      exact ⟨fun c hcm => (checkContainer_ok_iff db g c).mp (hcont c hcm), h⟩
    · intro h; exact h.2

/-! ## Concrete demonstration data -/

/-- Demonstration database: item 0 is an ore, item 1 is crafted from it. -/
def db1 : ItemDatabase := ⟨[0], [(1, ⟨⟨1, 1⟩, [⟨0, 1⟩], [], 1⟩)]⟩

def reqs1 : List Requirement := [⟨1, 1, 0⟩]

/-- Result of the demonstration run of `buildFactory` on `db1`. -/
def demo1 : FactoryGraph × ItemDatabase := ((buildFactory db1 10 reqs1).toOption).getD default

/-! ## C1: the returned graph is validated -/

/-- C1: for every requirements map on which `buildFactory` returns normally,
every storage node of the returned graph has incoming and outgoing link counts
within `MAX_CONTAINER_LINKS` and `egress ≤ ingress`, and every fabrication
node has incoming link count within `MAX_INDUSTRY_LINKS`; the validator is the
last step of `buildFactory`, so when any check fails the run ends in an error
instead of returning. -/
theorem buildFactory_ok_implies_graphValid (db : ItemDatabase) (fuel : Nat)
    (reqs : List Requirement) (g : FactoryGraph) (db2 : ItemDatabase)
    (h : buildFactory db fuel reqs = .ok (g, db2)) : GraphValid db2 g := by
  unfold buildFactory at h
  obtain ⟨g0, h0, h⟩ := bindE_eq_ok h
  obtain ⟨g1, h1, h⟩ := bindE_eq_ok h
  obtain ⟨s, hs, h⟩ := bindE_eq_ok h
  obtain ⟨u, hu, h⟩ := bindE_eq_ok h
  injection h with h
  rw [Prod.mk.injEq] at h
  obtain ⟨hg, hdb⟩ := h
  cases u
  rw [← hg, ← hdb]
  exact (sanityCheck_ok_iff s.1 s.2).mp hu

/-- C1 witness: the theorem applied to the demonstration run. -/
theorem buildFactory_ok_implies_graphValid_witness :
    buildFactory db1 10 reqs1 = .ok demo1 ∧ GraphValid demo1.2 demo1.1 :=
  ⟨by decide, buildFactory_ok_implies_graphValid db1 10 reqs1 demo1.1 demo1.2 (by decide)⟩

/-! ## C2: determinism -/

/-- C2: the embedded `buildFactory` is a pure function of the requirements and
the database, so two runs on identical inputs return identical graphs, hence
identical node counts per node type, identical link topology and identical
split fractions. -/
theorem buildFactory_two_runs_equal (db : ItemDatabase) (fuel : Nat)
    (reqs : List Requirement) (g₁ g₂ : FactoryGraph) (db₁ db₂ : ItemDatabase)
    (h₁ : buildFactory db fuel reqs = .ok (g₁, db₁))
    (h₂ : buildFactory db fuel reqs = .ok (g₂, db₂)) :
    g₁ = g₂ ∧
    g₁.containers.length = g₂.containers.length ∧
    g₁.industries.length = g₂.industries.length ∧
    g₁.transferUnits.length = g₂.transferUnits.length ∧
    g₁.containers.map (fun c => c.split) = g₂.containers.map (fun c => c.split) := by
  rw [h₁] at h₂
  injection h₂ with h
  rw [Prod.mk.injEq] at h
  obtain ⟨hg, -⟩ := h
  rw [hg]
  exact ⟨rfl, rfl, rfl, rfl, rfl⟩

/-- C2 witness: the theorem applied to the demonstration run. -/
theorem buildFactory_two_runs_equal_witness :
    buildFactory db1 10 reqs1 = .ok demo1 ∧ demo1.1 = demo1.1 :=
  ⟨by decide,
   (buildFactory_two_runs_equal db1 10 reqs1 demo1.1 demo1.1 demo1.2 demo1.2
      (by decide) (by decide)).1⟩

/-! ## C5: the CapacityExceeded branch is reachable -/

/-- Database for the unchecked attach: item 2 is crafted from item 1 (product
quantity 1000 per run), and item 1's recipe has byproduct 3, an ore. -/
def dbC5 : ItemDatabase :=
  ⟨[3], [(1, ⟨⟨1, 1000⟩, [], [⟨3, 1⟩], 1⟩), (2, ⟨⟨2, 1⟩, [⟨1, 1⟩], [], 1⟩)]⟩

def reqsC5 : List Requirement := [⟨2, 11, 0⟩]

/-- C5: the CapacityExceeded failure branch of the attach operations is
reachable during synthesis.  Eleven industries of item 2 fill the item 1
container's ten outgoing links; the Byproduct Reconciler then calls
`transferUnit.takeFrom` on that full container without consulting its
`canAddOutgoingLinks` predicate first, and `buildFactory` fails with the
CapacityExceeded condition. -/
theorem buildFactory_reaches_capacityExceeded :
    buildFactory dbC5 20 reqsC5 = .error .capacityExceeded := by decide

/-! ## C9: the stored recipe is mutated -/

/-- Database whose item 3 recipe declares its ingredients in non-ascending
quantity order. -/
def db9 : ItemDatabase := ⟨[1, 2], [(3, ⟨⟨3, 1⟩, [⟨1, 5⟩, ⟨2, 1⟩], [], 1⟩)]⟩

def reqs9 : List Requirement := [⟨3, 1, 0⟩]

/-- C9: the Link-Limit Resolver sorts the looked-up recipe's ingredient array
in place for every industry it visits, so after `buildFactory` the stored
recipe of item 3 lists its ingredients in ascending-quantity order
`[(2,1), (1,5)]` instead of the declared order `[(1,5), (2,1)]`. -/
theorem buildFactory_sorts_stored_recipe :
    (buildFactory db9 10 reqs9).toOption.map (fun p => (findRecipe p.2 3).ingredients)
      = some [⟨2, 1⟩, ⟨1, 5⟩] ∧
    (findRecipe db9 3).ingredients = [⟨1, 5⟩, ⟨2, 1⟩] := by decide

/-! ## C3: split containers and their link shares -/

/-- Database whose item 1 recipe has byproduct 7, an ore. -/
def dbC8 : ItemDatabase := ⟨[7], [(1, ⟨⟨1, 1⟩, [], [⟨7, 1⟩], 1⟩)]⟩

/-- Graph with an item 1 container with an unconsumed byproduct 7 and two
byproduct-7 relays, both with incoming headroom. -/
def gC8 : FactoryGraph :=
  ⟨[⟨1, false, 1, 0, 0, [.industry 0], []⟩], [⟨1, [], some 0⟩],
   [⟨7, [], none⟩, ⟨7, [], none⟩], []⟩

/-- Same scenario with no relay and two item-7 containers, both with incoming
headroom. -/
def gC8b : FactoryGraph :=
  ⟨[⟨1, false, 1, 0, 0, [.industry 0], []⟩, ⟨7, false, 1, 0, 0, [], []⟩,
    ⟨7, false, 1, 0, 0, [], []⟩], [⟨1, [], some 0⟩], [], []⟩

/-- C8 counterexample: with two byproduct relays available in creation order
and both having incoming headroom, the Byproduct Reconciler attaches the
byproduct to the second (last-created) relay and not to the first one; and a
freshly created relay's output is wired to the last item container with
headroom, not the first. -/
theorem handleByproducts_selection_not_first_fit :
    (handleByproducts dbC8 10 gC8).toOption.map
        (fun g => g.transferUnits.map (fun t => t.inputs)) = some [[], [0]] ∧
    (handleByproducts dbC8 10 gC8).toOption.map
        (fun g => g.transferUnits.map (fun t => t.inputs)) ≠ some [[0], []] ∧
    (handleByproducts dbC8 10 gC8b).toOption.map
        (fun g => g.containers.map (fun c => c.producers))
      = some [[NodeRef.industry 0], [], [NodeRef.transferUnit 0]] := by decide

/-- Last-match characterization of a candidate loop that overwrites its
candidate on every passing element and never breaks. -/
theorem foldl_overwrite_last {α : Type} (p : α → Bool) (l : List α) (init : Option α) :
    l.foldl (fun acc x => if p x then some x else acc) init
      = ((l.filter p).getLast?).or init := by
  induction l generalizing init with
  | nil => simp
  | cons x xs ih =>
    simp only [List.foldl_cons, List.filter_cons]
    by_cases hp : p x
    · simp only [hp, if_true, ih]
      cases hfil : xs.filter p with
      | nil => simp
      | cons y ys => simp [List.getLast?_cons_cons, List.getLast?_cons]
    · simp [hp, ih]

/-- C8 amended: the candidate searches of the Byproduct Reconciler are
last-fit over creation order: the chosen relay is the last relay for the item
with incoming headroom, and the output container chosen for a fresh relay is
the last container with incoming headroom. -/
theorem byproduct_selection_last_fit (g : FactoryGraph) (idxs : List Nat) :
    pickLastTransfer g idxs
      = (idxs.filter (fun t => (g.transferUnits.getD t default).canAddIncomingLinks 1)).getLast? ∧
    pickLastContainer g idxs
      = (idxs.filter (fun i => (g.containers.getD i default).canAddIncomingLinks 1)).getLast? := by
  constructor
  · rw [pickLastTransfer, foldl_overwrite_last, Option.or_none]
  · rw [pickLastContainer, foldl_overwrite_last, Option.or_none]

/-! ## C3 amended: closed form of the split-container loop -/

/-- One unfolding step of `splitLoop`. -/
theorem splitLoop_succ (it : Item) (n e : ℤ) (k : Nat) (rem : ℤ) (g : FactoryGraph)
    (acc : List Nat) :
    splitLoop it n e (k + 1) rem g acc
      = splitLoop it n e k (rem - min e rem)
          (createSplitContainer g it (((min e rem : ℤ) : ℚ) / (n : ℚ))).1
          (acc ++ [(createSplitContainer g it (((min e rem : ℤ) : ℚ) / (n : ℚ))).2]) := rfl

theorem getD_set_self {α : Type} [Inhabited α] (l : List α) (i : Nat) (a : α)
    (h : i < l.length) : (l.set i a).getD i default = a := by
  rw [List.getD_eq_getElem?_getD, List.getElem?_set_self h]
  rfl

theorem getD_set_ne {α : Type} [Inhabited α] (l : List α) (i j : Nat) (a : α)
    (h : i ≠ j) : (l.set i a).getD j default = l.getD j default := by
  rw [List.getD_eq_getElem?_getD, List.getElem?_set_ne h, ← List.getD_eq_getElem?_getD]

theorem mem_insertRef {α : Type} [DecidableEq α] (l : List α) (a b : α) :
    b ∈ insertRef l a ↔ b ∈ l ∨ b = a := by
  unfold insertRef
  split_ifs with h
  · constructor
    · exact Or.inl
    · rintro (hb | rfl)
      · exact hb
      · exact h
  · simp [List.mem_append]

theorem self_mem_insertRef {α : Type} [DecidableEq α] (l : List α) (a : α) :
    a ∈ insertRef l a := (mem_insertRef l a a).mpr (Or.inr rfl)

theorem mem_insertRef_of_mem {α : Type} [DecidableEq α] (l : List α) (a b : α)
    (h : b ∈ l) : b ∈ insertRef l a := (mem_insertRef l a b).mpr (Or.inl h)

/-- Explicit success shape of `transferUnit.takeFrom(container)` when both
capacity predicates hold. -/
theorem transferTakeFrom_ok (g : FactoryGraph) (t cont : Nat)
    (hc : (g.containers.getD cont default).canAddOutgoingLinks 1 = true)
    (hu : (g.transferUnits.getD t default).canAddIncomingLinks 1 = true) :
    transferTakeFrom g t cont = .ok
      (setContainer
        (setTransferUnit g t { g.transferUnits.getD t default with
          inputs := insertRef (g.transferUnits.getD t default).inputs cont })
        cont { g.containers.getD cont default with
          consumers := insertRef (g.containers.getD cont default).consumers
            (.transferUnit t) }) := by
  unfold transferTakeFrom
  rw [hc, hu]
  rfl

/-- Inversion of a successful `transferUnit.takeFrom(container)`. -/
theorem transferTakeFrom_ok_inv (g : FactoryGraph) (t cont : Nat) (g' : FactoryGraph)
    (h : transferTakeFrom g t cont = .ok g') :
    (g.containers.getD cont default).canAddOutgoingLinks 1 = true ∧
    (g.transferUnits.getD t default).canAddIncomingLinks 1 = true ∧
    g' = setContainer
        (setTransferUnit g t { g.transferUnits.getD t default with
          inputs := insertRef (g.transferUnits.getD t default).inputs cont })
        cont { g.containers.getD cont default with
          consumers := insertRef (g.containers.getD cont default).consumers
            (.transferUnit t) } := by
  unfold transferTakeFrom at h
  split at h
  · next hcond =>
    rw [Bool.and_eq_true] at hcond
    injection h with h
    exact ⟨hcond.1, hcond.2, h.symm⟩
  · exact absurd h (by simp)

/-- Behaviour of `getD` after `set`: either unchanged, or a successful
in-range overwrite. -/
theorem getD_set_cases {α : Type} [Inhabited α] (l : List α) (i j : Nat) (a : α) :
    (l.set i a).getD j default = l.getD j default ∨
    (i = j ∧ i < l.length ∧ (l.set i a).getD j default = a) := by
  by_cases hij : i = j
  · subst hij
    by_cases hi : i < l.length
    · exact Or.inr ⟨rfl, hi, getD_set_self l i a hi⟩
    · left
      rw [List.set_eq_of_length_le (by omega)]
  · exact Or.inl (getD_set_ne l i j a hij)

/-- Monotonicity facts preserved by the rewiring loop, relative to the
industry being rewired: relay inputs only grow, consumer references other than
that industry survive, no consumer reference to that industry is ever added,
and that industry's input set only shrinks. -/
def RewireFrame (indIdx : Nat) (g g' : FactoryGraph) : Prop :=
  (∀ i r, r ∈ (g.transferUnits.getD i default).inputs →
      r ∈ (g'.transferUnits.getD i default).inputs) ∧
  (∀ ci r, r ≠ NodeRef.industry indIdx → r ∈ (g.containers.getD ci default).consumers →
      r ∈ (g'.containers.getD ci default).consumers) ∧
  (∀ ci, NodeRef.industry indIdx ∈ (g'.containers.getD ci default).consumers →
      NodeRef.industry indIdx ∈ (g.containers.getD ci default).consumers) ∧
  (∀ r, r ∈ (g'.industries.getD indIdx default).inputs →
      r ∈ (g.industries.getD indIdx default).inputs)

theorem rewireFrame_refl (indIdx : Nat) (g : FactoryGraph) : RewireFrame indIdx g g :=
  ⟨fun _ _ h => h, fun _ _ _ h => h, fun _ h => h, fun _ h => h⟩

theorem rewireFrame_trans {indIdx : Nat} {g1 g2 g3 : FactoryGraph}
    (h12 : RewireFrame indIdx g1 g2) (h23 : RewireFrame indIdx g2 g3) :
    RewireFrame indIdx g1 g3 :=
  ⟨fun i r h => h23.1 i r (h12.1 i r h),
   fun ci r hne h => h23.2.1 ci r hne (h12.2.1 ci r hne h),
   fun ci h => h12.2.2.1 ci (h23.2.2.1 ci h),
   fun r h => h12.2.2.2 r (h23.2.2.2 r h)⟩

theorem rewireFrame_detach (indIdx ci : Nat) (g : FactoryGraph) :
    RewireFrame indIdx g (detachInput g indIdx ci) := by
  unfold detachInput RewireFrame setContainer setIndustry
  refine ⟨fun _ _ h => h, ?_, ?_, ?_⟩
  · intro cj r hne hr
    rcases getD_set_cases g.containers ci cj
        { g.containers.getD ci default with
          consumers := (g.containers.getD ci default).consumers.erase
            (NodeRef.industry indIdx) } with hsame | ⟨rfl, hlt, hset⟩
    · rw [hsame]; exact hr
    · rw [hset]; exact (List.mem_erase_of_ne hne).mpr hr
  · intro cj hmem
    rcases getD_set_cases g.containers ci cj
        { g.containers.getD ci default with
          consumers := (g.containers.getD ci default).consumers.erase
            (NodeRef.industry indIdx) } with hsame | ⟨rfl, hlt, hset⟩
    · rw [hsame] at hmem; exact hmem
    · rw [hset] at hmem; exact List.erase_subset _ _ hmem
  · intro r hr
    rcases getD_set_cases g.industries indIdx indIdx
        { g.industries.getD indIdx default with
          inputs := (g.industries.getD indIdx default).inputs.erase
            (InputRef.container ci) } with hsame | ⟨-, hlt, hset⟩
    · rw [hsame] at hr; exact hr
    · rw [hset] at hr; exact List.erase_subset _ _ hr

theorem rewireFrame_takeFrom (indIdx : Nat) (g : FactoryGraph) (t cont : Nat)
    (g' : FactoryGraph) (h : transferTakeFrom g t cont = .ok g') :
    RewireFrame indIdx g g' := by
  obtain ⟨-, -, hg⟩ := transferTakeFrom_ok_inv g t cont g' h
  subst hg
  unfold RewireFrame setContainer setTransferUnit
  refine ⟨?_, ?_, ?_, fun _ h => h⟩
  · intro i r hr
    rcases getD_set_cases g.transferUnits t i
        { g.transferUnits.getD t default with
          inputs := insertRef (g.transferUnits.getD t default).inputs cont } with
      hsame | ⟨rfl, hlt, hset⟩
    · rw [hsame]; exact hr
    · rw [hset]; exact mem_insertRef_of_mem _ _ _ hr
  · intro cj r hne hr
    rcases getD_set_cases g.containers cont cj
        { g.containers.getD cont default with
          consumers := insertRef (g.containers.getD cont default).consumers
            (NodeRef.transferUnit t) } with hsame | ⟨rfl, hlt, hset⟩
    · rw [hsame]; exact hr
    · rw [hset]; exact mem_insertRef_of_mem _ _ _ hr
  · intro cj hmem
    rcases getD_set_cases g.containers cont cj
        { g.containers.getD cont default with
          consumers := insertRef (g.containers.getD cont default).consumers
            (NodeRef.transferUnit t) } with hsame | ⟨rfl, hlt, hset⟩
    · rw [hsame] at hmem; exact hmem
    · rw [hset] at hmem
      rcases (mem_insertRef _ _ _).mp hmem with hm | hm
      · exact hm
      · exact absurd hm (by simp)

/-- Frame conditions of the whole rewiring loop. -/
theorem rewireLoop_frame (indIdx : Nat) :
    ∀ (units : List Nat) (g g' : FactoryGraph), rewireLoop indIdx units g = .ok g' →
    RewireFrame indIdx g g' := by
  intro units
  induction units with
  | nil =>
    intro g g' h
    simp only [rewireLoop] at h
    injection h with h
    subst h
    exact rewireFrame_refl indIdx g
  | cons t rest ih =>
    intro g g' h
    simp only [rewireLoop] at h
    revert h
    cases hfind : (g.industries.getD indIdx default).inputs.find? (rewireMatch g t) with
    | none => intro h; exact absurd h (by simp)
    | some r =>
      cases r with
      | transferContainer j => intro h; exact absurd h (by simp)
      | container ci =>
        intro h
        revert h
        cases htk : transferTakeFrom (detachInput g indIdx ci) t ci with
        | error e => intro h; exact absurd h (by simp [htk])
        | ok g3 =>
          intro h
          simp only [htk, bindE_okArg] at h
          exact rewireFrame_trans
            (rewireFrame_trans (rewireFrame_detach indIdx ci g)
              (rewireFrame_takeFrom indIdx _ t ci g3 htk))
            (ih g3 g' h)

/-- C4: for an industry over the incoming-link cap, under the structural facts
holding for the transfer container the Link-Limit Resolver chooses (relays
with pairwise distinct items, incoming headroom and valid indices; a
duplicate-free input set whose direct container inputs are in range, hold the
industry among their consumers without duplicates, and are within the
outgoing-link cap), the rewiring loop fails if and only if some relay's item
matches no direct (non-transfer-container) container input of the industry;
otherwise every relay takes over the industry's first direct input for its
item — the old link removed in both directions, the container attached to the
relay — and the concluding `industry.takeFrom(transferContainer)` adds the one
relay-storage link. -/
theorem rewireLoop_error_iff_no_match (indIdx : Nat) :
    ∀ (units : List Nat) (g : FactoryGraph),
    indIdx < g.industries.length →
    (units.map (fun t => (g.transferUnits.getD t default).item)).Nodup →
    (∀ t ∈ units, t < g.transferUnits.length ∧
        (g.transferUnits.getD t default).canAddIncomingLinks 1 = true) →
    (g.industries.getD indIdx default).inputs.Nodup →
    (∀ ci, InputRef.container ci ∈ (g.industries.getD indIdx default).inputs →
        ci < g.containers.length ∧
        NodeRef.industry indIdx ∈ (g.containers.getD ci default).consumers ∧
        (g.containers.getD ci default).consumers.Nodup ∧
        (g.containers.getD ci default).consumers.length ≤ MAX_CONTAINER_LINKS) →
    (((∃ e, rewireLoop indIdx units g = .error e) ↔
      ∃ t ∈ units, ∀ ci, InputRef.container ci ∈ (g.industries.getD indIdx default).inputs →
        (g.containers.getD ci default).item ≠ (g.transferUnits.getD t default).item) ∧
    (∀ g', rewireLoop indIdx units g = .ok g' → ∀ t ∈ units, ∃ ci,
        InputRef.container ci ∈ (g.industries.getD indIdx default).inputs ∧
        (g.containers.getD ci default).item = (g.transferUnits.getD t default).item ∧
        ci ∈ (g'.transferUnits.getD t default).inputs ∧
        NodeRef.transferUnit t ∈ (g'.containers.getD ci default).consumers ∧
        NodeRef.industry indIdx ∉ (g'.containers.getD ci default).consumers ∧
        InputRef.container ci ∉ (g'.industries.getD indIdx default).inputs) ∧
    (∀ (h : FactoryGraph) (tcIdx : Nat) (g' : FactoryGraph), indIdx < h.industries.length →
        industryTakeFromTransferContainer h indIdx tcIdx = .ok g' →
        InputRef.transferContainer tcIdx ∈ (g'.industries.getD indIdx default).inputs)) := by
  have hfinal : ∀ (h : FactoryGraph) (tcIdx : Nat) (g' : FactoryGraph),
      indIdx < h.industries.length →
      industryTakeFromTransferContainer h indIdx tcIdx = .ok g' →
      InputRef.transferContainer tcIdx ∈ (g'.industries.getD indIdx default).inputs := by
    intro h tcIdx g' hlt hok
    unfold industryTakeFromTransferContainer at hok
    split at hok
    · injection hok with hok
      subst hok
      unfold setTransferContainer setIndustry
      rw [getD_set_self _ _ _ hlt]
      exact self_mem_insertRef _ _
    · exact absurd hok (by simp)
  intro units
  induction units with
  | nil =>
    intro g hind hitems hroom hinp hsym
    refine ⟨⟨?_, ?_⟩, ?_, hfinal⟩
    · rintro ⟨e, he⟩
      simp [rewireLoop] at he
    · rintro ⟨u, hu, -⟩
      exact absurd hu (by simp)
    · intro g' _ u hu
      exact absurd hu (by simp)
  | cons t rest ih =>
    intro g hind hitems hroom hinp hsym
    cases hfind : (g.industries.getD indIdx default).inputs.find? (rewireMatch g t) with
    | none =>
      have hnomatch : ∀ ci, InputRef.container ci ∈ (g.industries.getD indIdx default).inputs →
          (g.containers.getD ci default).item ≠ (g.transferUnits.getD t default).item := by
        intro ci hci
        have := List.find?_eq_none.mp hfind _ hci
        simpa [rewireMatch] using this
      refine ⟨⟨?_, ?_⟩, ?_, hfinal⟩
      · intro _
        exact ⟨t, by simp, hnomatch⟩
      · intro _
        exact ⟨.unableToTransferItem, by simp only [rewireLoop, hfind]⟩
      · intro g' hok
        rw [show rewireLoop indIdx (t :: rest) g = .error .unableToTransferItem by
          simp only [rewireLoop, hfind]] at hok
        exact absurd hok (by simp)
    | some r =>
      have hpred := List.find?_some hfind
      have hmem := List.mem_of_find?_eq_some hfind
      cases r with
      | transferContainer j => simp [rewireMatch] at hpred
      | container ci =>
        rw [rewireMatch, decide_eq_true_eq] at hpred
        obtain ⟨hci_lt, hci_cons, hci_nodup, hci_cap⟩ := hsym ci hmem
        obtain ⟨ht_lt, ht_room⟩ := hroom t (by simp)
        have htrest : t ∉ rest := by
          intro hmem_t
          have h1 := (List.nodup_cons.mp hitems).1
          exact h1 (List.mem_map_of_mem _ hmem_t)
        have hgd_units : (detachInput g indIdx ci).transferUnits = g.transferUnits := by
          simp [detachInput, setIndustry, setContainer]
        have hgd_cont_ci : (detachInput g indIdx ci).containers.getD ci default
            = { g.containers.getD ci default with
                consumers := (g.containers.getD ci default).consumers.erase
                  (.industry indIdx) } := by
          simp only [detachInput, setIndustry, setContainer]
          exact getD_set_self _ _ _ hci_lt
        have hcap : ((detachInput g indIdx ci).containers.getD ci default).canAddOutgoingLinks 1
            = true := by
          rw [hgd_cont_ci]
          unfold ContainerNode.canAddOutgoingLinks
          have hlen := List.length_erase_of_mem hci_cons
          simp only [decide_eq_true_eq]
          rw [hlen]
          have : 1 ≤ (g.containers.getD ci default).consumers.length :=
            List.length_pos.mpr (List.ne_nil_of_mem hci_cons)
          omega
        have htk := transferTakeFrom_ok (detachInput g indIdx ci) t ci hcap
          (by rw [hgd_units]; exact ht_room)
        have hloop : rewireLoop indIdx (t :: rest) g
            = rewireLoop indIdx rest
                (setContainer
                  (setTransferUnit (detachInput g indIdx ci) t
                    { (detachInput g indIdx ci).transferUnits.getD t default with
                      inputs := insertRef
                        ((detachInput g indIdx ci).transferUnits.getD t default).inputs ci })
                  ci { (detachInput g indIdx ci).containers.getD ci default with
                    consumers := insertRef
                      ((detachInput g indIdx ci).containers.getD ci default).consumers
                      (.transferUnit t) }) := by
          simp only [rewireLoop, hfind, htk, bindE_okArg]
        set g3 := setContainer
            (setTransferUnit (detachInput g indIdx ci) t
              { (detachInput g indIdx ci).transferUnits.getD t default with
                inputs := insertRef
                  ((detachInput g indIdx ci).transferUnits.getD t default).inputs ci })
            ci { (detachInput g indIdx ci).containers.getD ci default with
              consumers := insertRef
                ((detachInput g indIdx ci).containers.getD ci default).consumers
                (.transferUnit t) } with hg3def
        have h3_ind_lt : indIdx < g3.industries.length := by
          simp [hg3def, setContainer, setTransferUnit, detachInput, setIndustry, hind]
        have h3_cont_len : g3.containers.length = g.containers.length := by
          simp [hg3def, setContainer, setTransferUnit, detachInput, setIndustry]
        have h3_units_len : g3.transferUnits.length = g.transferUnits.length := by
          simp [hg3def, setContainer, setTransferUnit, detachInput, setIndustry]
        have h3_ind_inputs : (g3.industries.getD indIdx default).inputs
            = (g.industries.getD indIdx default).inputs.erase (.container ci) := by
          simp only [hg3def, setContainer, setTransferUnit, detachInput, setIndustry]
          rw [getD_set_self _ _ _ (by simpa using hind)]
        have h3_unit_t : g3.transferUnits.getD t default
            = { g.transferUnits.getD t default with
                inputs := insertRef (g.transferUnits.getD t default).inputs ci } := by
          simp only [hg3def, setContainer]
          show ((setTransferUnit (detachInput g indIdx ci) t _).transferUnits).getD t default = _
          unfold setTransferUnit
          rw [hgd_units]
          exact getD_set_self _ _ _ ht_lt
        have h3_units_ne : ∀ u, u ≠ t → g3.transferUnits.getD u default
            = g.transferUnits.getD u default := by
          intro u hu
          simp only [hg3def, setContainer]
          show ((setTransferUnit (detachInput g indIdx ci) t _).transferUnits).getD u default = _
          unfold setTransferUnit
          rw [hgd_units]
          exact getD_set_ne _ _ _ _ (fun h => hu h.symm)
        have h3_cont_ci : g3.containers.getD ci default
            = { g.containers.getD ci default with
                consumers := insertRef
                  ((g.containers.getD ci default).consumers.erase (.industry indIdx))
                  (.transferUnit t) } := by
          simp only [hg3def, setContainer, hgd_cont_ci]
          have hlen : ci < ((setTransferUnit (detachInput g indIdx ci) t
              { (detachInput g indIdx ci).transferUnits.getD t default with
                inputs := insertRef
                  ((detachInput g indIdx ci).transferUnits.getD t default).inputs ci })).containers.length := by
            simp [setTransferUnit, detachInput, setIndustry, setContainer, hci_lt]
          rw [getD_set_self _ _ _ hlen]
        have h3_cont_ne : ∀ cj, cj ≠ ci → g3.containers.getD cj default
            = g.containers.getD cj default := by
          intro cj hcj
          simp only [hg3def, setContainer]
          rw [getD_set_ne _ _ _ _ (fun h => hcj h.symm)]
          show ((detachInput g indIdx ci).containers).getD cj default = _
          simp only [detachInput, setIndustry, setContainer]
          exact getD_set_ne _ _ _ _ (fun h => hcj h.symm)
        have h3_items : ∀ cj, (g3.containers.getD cj default).item
            = (g.containers.getD cj default).item := by
          intro cj
          by_cases hcj : cj = ci
          · subst hcj; rw [h3_cont_ci]
          · rw [h3_cont_ne cj hcj]
        have h3_unit_items : ∀ u, (g3.transferUnits.getD u default).item
            = (g.transferUnits.getD u default).item := by
          intro u
          by_cases hu : u = t
          · subst hu; rw [h3_unit_t]
          · rw [h3_units_ne u hu]
        have hitems3 : (rest.map (fun u => (g3.transferUnits.getD u default).item)).Nodup := by
          have : rest.map (fun u => (g3.transferUnits.getD u default).item)
              = rest.map (fun u => (g.transferUnits.getD u default).item) := by
            apply List.map_congr_left
            intro u _
            exact h3_unit_items u
          rw [this]
          exact (List.nodup_cons.mp hitems).2
        have hroom3 : ∀ u ∈ rest, u < g3.transferUnits.length ∧
            (g3.transferUnits.getD u default).canAddIncomingLinks 1 = true := by
          intro u hu
          have hune : u ≠ t := fun h => htrest (h ▸ hu)
          obtain ⟨h1, h2⟩ := hroom u (List.mem_cons_of_mem _ hu)
          exact ⟨by rw [h3_units_len]; exact h1, by rw [h3_units_ne u hune]; exact h2⟩
        have hinp3 : (g3.industries.getD indIdx default).inputs.Nodup := by
          rw [h3_ind_inputs]
          exact hinp.erase _
        have hsym3 : ∀ cj, InputRef.container cj ∈ (g3.industries.getD indIdx default).inputs →
            cj < g3.containers.length ∧
            NodeRef.industry indIdx ∈ (g3.containers.getD cj default).consumers ∧
            (g3.containers.getD cj default).consumers.Nodup ∧
            (g3.containers.getD cj default).consumers.length ≤ MAX_CONTAINER_LINKS := by
          intro cj hcj3
          rw [h3_ind_inputs] at hcj3
          have hcj_ne : cj ≠ ci := by
            intro h
            subst h
            exact hinp.not_mem_erase hcj3
          have hcj_mem : InputRef.container cj ∈ (g.industries.getD indIdx default).inputs :=
            List.erase_subset _ _ hcj3
          obtain ⟨ha, hb, hc, hd⟩ := hsym cj hcj_mem
          rw [h3_cont_ne cj hcj_ne]
          exact ⟨by rw [h3_cont_len]; exact ha, hb, hc, hd⟩
        obtain ⟨ihiff, ihok, -⟩ := ih g3 h3_ind_lt hitems3 hroom3 hinp3 hsym3
        have hitem_ne : ∀ u ∈ rest, (g.transferUnits.getD u default).item
            ≠ (g.transferUnits.getD t default).item := by
          intro u hu h
          apply (List.nodup_cons.mp hitems).1
          have hmm : (g.transferUnits.getD u default).item
              ∈ List.map (fun v => (g.transferUnits.getD v default).item) rest :=
            List.mem_map_of_mem (fun v => (g.transferUnits.getD v default).item) hu
          rw [h] at hmm
          exact hmm
        have htrans : ∀ u ∈ rest,
            ((∀ cj, InputRef.container cj ∈ (g3.industries.getD indIdx default).inputs →
                (g3.containers.getD cj default).item ≠ (g3.transferUnits.getD u default).item) ↔
             (∀ cj, InputRef.container cj ∈ (g.industries.getD indIdx default).inputs →
                (g.containers.getD cj default).item ≠ (g.transferUnits.getD u default).item)) := by
          intro u hu
          constructor
          · intro h3 cj hcj hitem
            by_cases hcj_ci : cj = ci
            · subst hcj_ci
              exact hitem_ne u hu (hpred ▸ hitem ▸ rfl)
            · apply h3 cj
              · rw [h3_ind_inputs]
                exact (List.mem_erase_of_ne (by simpa using hcj_ci)).mpr hcj
              · rw [h3_items, h3_unit_items u]
                exact hitem
          · intro hg cj hcj3 hitem
            rw [h3_ind_inputs] at hcj3
            apply hg cj (List.erase_subset _ _ hcj3)
            rw [h3_items, h3_unit_items u] at hitem
            exact hitem
        refine ⟨⟨?_, ?_⟩, ?_, hfinal⟩
        · rintro ⟨e, he⟩
          rw [hloop] at he
          obtain ⟨u, hu, hnm⟩ := ihiff.mp ⟨e, he⟩
          exact ⟨u, List.mem_cons_of_mem _ hu, (htrans u hu).mp hnm⟩
        · rintro ⟨u, hu, hnm⟩
          rcases List.mem_cons.mp hu with rfl | hu2
          · exact absurd hpred (hnm ci hmem)
          · obtain ⟨e, he⟩ := ihiff.mpr ⟨u, hu2, (htrans u hu2).mpr hnm⟩
            exact ⟨e, by rw [hloop]; exact he⟩
        · intro g' hok u hu
          rw [hloop] at hok
          obtain ⟨fr1, fr2, fr3, fr4⟩ := rewireLoop_frame indIdx rest g3 g' hok
          rcases List.mem_cons.mp hu with rfl | hu2
          · refine ⟨ci, hmem, hpred, ?_, ?_, ?_, ?_⟩
            · apply fr1
              rw [h3_unit_t]
              exact self_mem_insertRef _ _
            · apply fr2 _ _ (by simp)
              rw [h3_cont_ci]
              exact self_mem_insertRef _ _
            · intro hcontra
              have h3in := fr3 ci hcontra
              rw [h3_cont_ci] at h3in
              rcases (mem_insertRef _ _ _).mp h3in with hm | hm
              · exact hci_nodup.not_mem_erase hm
              · exact absurd hm (by simp)
            · intro hcontra
              have h3in := fr4 _ hcontra
              rw [h3_ind_inputs] at h3in
              exact hinp.not_mem_erase h3in
          · obtain ⟨cj, hcj_mem3, hcj_item3, hrest⟩ := ihok g' hok u hu2
            refine ⟨cj, ?_, ?_, hrest⟩
            · rw [h3_ind_inputs] at hcj_mem3
              exact List.erase_subset _ _ hcj_mem3
            · rw [h3_items, h3_unit_items u] at hcj_item3
              exact hcj_item3

/-- Concrete rewiring scenario: industry 0 takes item 10 from container 0,
and relay 0 carries item 10. -/
def gC4 : FactoryGraph :=
  ⟨[⟨10, false, 1, 0, 0, [], [.industry 0]⟩], [⟨5, [.container 0], none⟩],
   [⟨10, [], none⟩], []⟩

/-- Result of the concrete rewiring run. -/
def gC4res : FactoryGraph := (rewireLoop 0 [0] gC4).toOption.getD default

/-- C4 witness: the rewiring theorem applied to the concrete scenario. -/
theorem rewireLoop_error_iff_no_match_witness :
    (¬ ∃ e, rewireLoop 0 [0] gC4 = .error e) ∧
    rewireLoop 0 [0] gC4 = .ok gC4res ∧
    ∃ ci, InputRef.container ci ∈ (gC4.industries.getD 0 default).inputs ∧
      (gC4.containers.getD ci default).item = (gC4.transferUnits.getD 0 default).item ∧
      ci ∈ (gC4res.transferUnits.getD 0 default).inputs ∧
      NodeRef.transferUnit 0 ∈ (gC4res.containers.getD ci default).consumers ∧
      NodeRef.industry 0 ∉ (gC4res.containers.getD ci default).consumers ∧
      InputRef.container ci ∉ (gC4res.industries.getD 0 default).inputs := by
  have hres : rewireLoop 0 [0] gC4 = .ok gC4res := by decide
  have hsymc : ∀ ci, InputRef.container ci ∈ (gC4.industries.getD 0 default).inputs →
      ci < gC4.containers.length ∧
      NodeRef.industry 0 ∈ (gC4.containers.getD ci default).consumers ∧
      (gC4.containers.getD ci default).consumers.Nodup ∧
      (gC4.containers.getD ci default).consumers.length ≤ MAX_CONTAINER_LINKS := by
    intro ci hci
    simp only [gC4, List.getD, List.getElem?_cons_zero, Option.getD_some,
      List.mem_singleton] at hci
    have : ci = 0 := by
      cases hci with
      | head => rfl
      | tail _ h => cases h
    subst this
    decide
  obtain ⟨-, hok, -⟩ := rewireLoop_error_iff_no_match 0 [0] gC4 (by decide) (by decide)
    (by
      intro u hu
      have : u = 0 := by simpa using hu
      subst this
      decide)
    (by decide) hsymc
  refine ⟨?_, hres, hok gC4res hres 0 (by decide)⟩
  rintro ⟨e, he⟩
  rw [hres] at he
  exact absurd he (by simp)

/-! ## Monotone evolution of the graph -/

/-- Per-container monotone evolution: static fields are stable and the link
sets only grow. -/
structure ContExt (c c' : ContainerNode) : Prop where
  item : c'.item = c.item
  isSplit : c'.isSplit = c.isSplit
  split : c'.split = c.split
  producers : c.producers.Sublist c'.producers
  consumers : c.consumers.Sublist c'.consumers

/-- Monotone evolution of the graph under the synthesis and reconciliation
operations: nodes are only added, items and split data are stable, link sets
only grow. -/
structure Ext (g g' : FactoryGraph) : Prop where
  contLen : g.containers.length ≤ g'.containers.length
  cont : ∀ i, i < g.containers.length →
    ContExt (g.containers.getD i default) (g'.containers.getD i default)
  indLen : g.industries.length ≤ g'.industries.length
  indItem : ∀ i, i < g.industries.length →
    (g'.industries.getD i default).item = (g.industries.getD i default).item
  tuLen : g.transferUnits.length ≤ g'.transferUnits.length
  tuItem : ∀ i, i < g.transferUnits.length →
    (g'.transferUnits.getD i default).item = (g.transferUnits.getD i default).item

theorem contExt_refl (c : ContainerNode) : ContExt c c :=
  ⟨rfl, rfl, rfl, List.Sublist.refl _, List.Sublist.refl _⟩

theorem contExt_trans {a b c : ContainerNode} (h1 : ContExt a b) (h2 : ContExt b c) :
    ContExt a c :=
  ⟨h2.item.trans h1.item, h2.isSplit.trans h1.isSplit, h2.split.trans h1.split,
   h1.producers.trans h2.producers, h1.consumers.trans h2.consumers⟩

theorem ext_refl (g : FactoryGraph) : Ext g g :=
  ⟨le_refl _, fun _ _ => contExt_refl _, le_refl _, fun _ _ => rfl,
   le_refl _, fun _ _ => rfl⟩

theorem ext_trans {g1 g2 g3 : FactoryGraph} (h1 : Ext g1 g2) (h2 : Ext g2 g3) :
    Ext g1 g3 := by
  refine ⟨le_trans h1.contLen h2.contLen, ?_, le_trans h1.indLen h2.indLen, ?_,
    le_trans h1.tuLen h2.tuLen, ?_⟩
  · intro i hi
    exact contExt_trans (h1.cont i hi) (h2.cont i (lt_of_lt_of_le hi h1.contLen))
  · intro i hi
    exact (h2.indItem i (lt_of_lt_of_le hi h1.indLen)).trans (h1.indItem i hi)
  · intro i hi
    exact (h2.tuItem i (lt_of_lt_of_le hi h1.tuLen)).trans (h1.tuItem i hi)

theorem getD_append_left {α : Type} [Inhabited α] (l l2 : List α) (i : Nat)
    (h : i < l.length) : (l ++ l2).getD i default = l.getD i default := by
  rw [List.getD_eq_getElem?_getD, List.getElem?_append, if_pos h,
    ← List.getD_eq_getElem?_getD]

theorem sublist_insertRef {α : Type} [DecidableEq α] (l : List α) (a : α) :
    l.Sublist (insertRef l a) := by
  unfold insertRef
  split_ifs
  · exact List.Sublist.refl _
  · exact List.sublist_append_left _ _

theorem ext_createContainer (g : FactoryGraph) (it : Item) : Ext g (createContainer g it).1 := by
  refine ⟨by simp [createContainer], ?_, by simp [createContainer], fun _ _ => rfl,
    by simp [createContainer], fun _ _ => rfl⟩
  intro i hi
  show ContExt _ ((g.containers ++ _).getD i default)
  rw [getD_append_left _ _ _ hi]
  exact contExt_refl _

theorem ext_createSplitContainer (g : FactoryGraph) (it : Item) (sp : ℚ) :
    Ext g (createSplitContainer g it sp).1 := by
  refine ⟨by simp [createSplitContainer], ?_, by simp [createSplitContainer], fun _ _ => rfl,
    by simp [createSplitContainer], fun _ _ => rfl⟩
  intro i hi
  show ContExt _ ((g.containers ++ _).getD i default)
  rw [getD_append_left _ _ _ hi]
  exact contExt_refl _

theorem ext_createOutput (g : FactoryGraph) (it : Item) (rate maintain : ℚ) :
    Ext g (createOutput g it rate maintain).1 := by
  refine ⟨by simp [createOutput], ?_, by simp [createOutput], fun _ _ => rfl,
    by simp [createOutput], fun _ _ => rfl⟩
  intro i hi
  show ContExt _ ((g.containers ++ _).getD i default)
  rw [getD_append_left _ _ _ hi]
  exact contExt_refl _

theorem ext_createIndustry (g : FactoryGraph) (it : Item) : Ext g (createIndustry g it).1 := by
  refine ⟨le_refl _, fun _ _ => contExt_refl _, by simp [createIndustry], ?_,
    le_refl _, fun _ _ => rfl⟩
  intro i hi
  show ((g.industries ++ _).getD i default).item = _
  rw [getD_append_left _ _ _ hi]

theorem ext_createTransferUnit (g : FactoryGraph) (it : Item) :
    Ext g (createTransferUnit g it).1 := by
  refine ⟨le_refl _, fun _ _ => contExt_refl _, le_refl _, fun _ _ => rfl,
    by simp [createTransferUnit], ?_⟩
  intro i hi
  show ((g.transferUnits ++ _).getD i default).item = _
  rw [getD_append_left _ _ _ hi]

theorem ext_createTransferContainer (g : FactoryGraph) (items : List Item) :
    Ext g (createTransferContainer g items).1 :=
  ⟨le_refl _, fun _ _ => contExt_refl _, le_refl _, fun _ _ => rfl,
   le_refl _, fun _ _ => rfl⟩

theorem ext_setContainer (g : FactoryGraph) (i : Nat) (c' : ContainerNode)
    (h : ContExt (g.containers.getD i default) c') : Ext g (setContainer g i c') := by
  refine ⟨by simp [setContainer], ?_, le_refl _, fun _ _ => rfl, le_refl _, fun _ _ => rfl⟩
  intro j hj
  show ContExt _ ((g.containers.set i c').getD j default)
  rcases getD_set_cases g.containers i j c' with hsame | ⟨heq, hlt, hset⟩
  · rw [hsame]
    exact contExt_refl _
  · subst heq
    rw [hset]
    exact h

theorem ext_setIndustry (g : FactoryGraph) (i : Nat) (ind' : IndustryNode)
    (h : ind'.item = (g.industries.getD i default).item) : Ext g (setIndustry g i ind') := by
  refine ⟨le_refl _, fun _ _ => contExt_refl _, by simp [setIndustry], ?_,
    le_refl _, fun _ _ => rfl⟩
  intro j hj
  show ((g.industries.set i ind').getD j default).item = _
  rcases getD_set_cases g.industries i j ind' with hsame | ⟨heq, hlt, hset⟩
  · rw [hsame]
  · subst heq
    rw [hset, h]

theorem ext_setTransferUnit (g : FactoryGraph) (i : Nat) (u' : TransferNode)
    (h : u'.item = (g.transferUnits.getD i default).item) :
    Ext g (setTransferUnit g i u') := by
  refine ⟨le_refl _, fun _ _ => contExt_refl _, le_refl _, fun _ _ => rfl,
    by simp [setTransferUnit], ?_⟩
  intro j hj
  show ((g.transferUnits.set i u').getD j default).item = _
  rcases getD_set_cases g.transferUnits i j u' with hsame | ⟨heq, hlt, hset⟩
  · rw [hsame]
  · subst heq
    rw [hset, h]

theorem ext_setTransferContainer (g : FactoryGraph) (i : Nat) (tc' : TransferContainerNode) :
    Ext g (setTransferContainer g i tc') :=
  ⟨le_refl _, fun _ _ => contExt_refl _, le_refl _, fun _ _ => rfl,
   le_refl _, fun _ _ => rfl⟩

theorem ext_industryOutputTo {g : FactoryGraph} {ind cont : Nat} {g' : FactoryGraph}
    (h : industryOutputTo g ind cont = .ok g') : Ext g g' := by
  unfold industryOutputTo at h
  split at h
  · injection h with h
    subst h
    refine ext_trans (ext_setIndustry g ind _ ?_) (ext_setContainer _ cont _ ?_)
    · rfl
    · exact ⟨rfl, rfl, rfl, sublist_insertRef _ _, List.Sublist.refl _⟩
  · exact absurd h (by simp)

theorem ext_industryTakeFromContainer {g : FactoryGraph} {ind cont : Nat} {g' : FactoryGraph}
    (h : industryTakeFromContainer g ind cont = .ok g') : Ext g g' := by
  unfold industryTakeFromContainer at h
  split at h
  · injection h with h
    subst h
    refine ext_trans (ext_setIndustry g ind _ ?_) (ext_setContainer _ cont _ ?_)
    · rfl
    · exact ⟨rfl, rfl, rfl, List.Sublist.refl _, sublist_insertRef _ _⟩
  · exact absurd h (by simp)

theorem ext_industryTakeFromTransferContainer {g : FactoryGraph} {ind tc : Nat}
    {g' : FactoryGraph} (h : industryTakeFromTransferContainer g ind tc = .ok g') :
    Ext g g' := by
  unfold industryTakeFromTransferContainer at h
  split at h
  · injection h with h
    subst h
    refine ext_trans (ext_setIndustry g ind _ ?_) (ext_setTransferContainer _ tc _)
    rfl
  · exact absurd h (by simp)

theorem ext_transferTakeFrom {g : FactoryGraph} {t cont : Nat} {g' : FactoryGraph}
    (h : transferTakeFrom g t cont = .ok g') : Ext g g' := by
  obtain ⟨-, -, hg⟩ := transferTakeFrom_ok_inv g t cont g' h
  subst hg
  refine ext_trans (ext_setTransferUnit g t _ ?_) (ext_setContainer _ cont _ ?_)
  · rfl
  · exact ⟨rfl, rfl, rfl, List.Sublist.refl _, sublist_insertRef _ _⟩

theorem ext_transferOutputToContainer {g : FactoryGraph} {t cont : Nat} {g' : FactoryGraph}
    (h : transferOutputToContainer g t cont = .ok g') : Ext g g' := by
  unfold transferOutputToContainer at h
  split at h
  · injection h with h
    subst h
    refine ext_trans (ext_setTransferUnit g t _ ?_) (ext_setContainer _ cont _ ?_)
    · rfl
    · exact ⟨rfl, rfl, rfl, sublist_insertRef _ _, List.Sublist.refl _⟩
  · exact absurd h (by simp)

theorem ext_transferOutputToTransferContainer {g : FactoryGraph} {t tc : Nat}
    {g' : FactoryGraph} (h : transferOutputToTransferContainer g t tc = .ok g') :
    Ext g g' := by
  unfold transferOutputToTransferContainer at h
  split at h
  · injection h with h
    subst h
    refine ext_trans (ext_setTransferUnit g t _ ?_) (ext_setTransferContainer _ tc _)
    rfl
  · exact absurd h (by simp)

/-! ## Consumer references, byproduct coverage -/

/-- A producer/consumer reference points at an existing node. -/
def refInRange (g : FactoryGraph) (r : NodeRef) : Bool :=
  match r with
  | .industry i => decide (i < g.industries.length)
  | .transferUnit i => decide (i < g.transferUnits.length)

/-- Every consumer reference of every container points at an existing node. -/
def ConsRefsWF (g : FactoryGraph) : Prop :=
  ∀ i, i < g.containers.length →
    ∀ r ∈ (g.containers.getD i default).consumers, refInRange g r = true

instance (g : FactoryGraph) : Decidable (ConsRefsWF g) := by
  unfold ConsRefsWF
  infer_instance

/-- Some consumer of container `i` produces or carries the item `it`: the
"already handled" test of the Byproduct Reconciler, and the consumed-directly-
or-via-relay property of a byproduct. -/
def covered (g : FactoryGraph) (i : Nat) (it : Item) : Prop :=
  ∃ r ∈ (g.containers.getD i default).consumers, refItem g r = it

/-- Containers appended to the graph between two states are not split. -/
def NewNonSplit (g g' : FactoryGraph) : Prop :=
  ∀ i, g.containers.length ≤ i → i < g'.containers.length →
    (g'.containers.getD i default).isSplit = false

theorem refInRange_mono {g g' : FactoryGraph} (hext : Ext g g') {r : NodeRef}
    (hr : refInRange g r = true) : refInRange g' r = true := by
  cases r with
  | industry i =>
    simp only [refInRange, decide_eq_true_eq] at hr ⊢
    exact lt_of_lt_of_le hr hext.indLen
  | transferUnit i =>
    simp only [refInRange, decide_eq_true_eq] at hr ⊢
    exact lt_of_lt_of_le hr hext.tuLen

theorem refItem_stable {g g' : FactoryGraph} (hext : Ext g g') {r : NodeRef}
    (hr : refInRange g r = true) : refItem g' r = refItem g r := by
  cases r with
  | industry i =>
    simp only [refInRange, decide_eq_true_eq] at hr
    exact hext.indItem i hr
  | transferUnit i =>
    simp only [refInRange, decide_eq_true_eq] at hr
    exact hext.tuItem i hr

theorem covered_mono {g g' : FactoryGraph} (hext : Ext g g') (hwf : ConsRefsWF g)
    {i : Nat} (hi : i < g.containers.length) {it : Item} (h : covered g i it) :
    covered g' i it := by
  obtain ⟨r, hr, hitem⟩ := h
  refine ⟨r, (hext.cont i hi).consumers.subset hr, ?_⟩
  rw [refItem_stable hext (hwf i hi r hr), hitem]

theorem newNonSplit_of_le {g g' : FactoryGraph}
    (h : g'.containers.length ≤ g.containers.length) : NewNonSplit g g' :=
  fun _ h1 h2 => absurd (lt_of_lt_of_le h2 h) (by omega)

theorem newNonSplit_trans {g1 g2 g3 : FactoryGraph} (h12 : NewNonSplit g1 g2)
    (h23 : NewNonSplit g2 g3) (e23 : Ext g2 g3) : NewNonSplit g1 g3 := by
  intro i h1 h3
  by_cases h2 : i < g2.containers.length
  · rw [(e23.cont i h2).isSplit]
    exact h12 i h1 h2
  · exact h23 i (by omega) h3

theorem getD_append_single {α : Type} [Inhabited α] (l : List α) (a : α) (j : Nat)
    (h : l.length ≤ j) :
    (l ++ [a]).getD j default = if j = l.length then a else default := by
  by_cases hj : j = l.length
  · subst hj
    rw [if_pos rfl, List.getD_eq_getElem?_getD, List.getElem?_append_right (le_refl _)]
    simp
  · rw [if_neg hj, List.getD_eq_getElem?_getD, List.getElem?_append_right h,
      List.getElem?_eq_none (by simp only [List.length_singleton]; omega)]
    rfl

theorem newNonSplit_createContainer (g : FactoryGraph) (it : Item) :
    NewNonSplit g (createContainer g it).1 := by
  intro i h1 h2
  show ((g.containers ++ [(⟨it, false, 1, 0, 0, [], []⟩ : ContainerNode)]).getD i
      default).isSplit = false
  rw [getD_append_single _ _ _ h1]
  split
  · rfl
  · rfl

theorem consRefsWF_createContainer {g : FactoryGraph} (hwf : ConsRefsWF g) (it : Item) :
    ConsRefsWF (createContainer g it).1 := by
  intro i hi r hr
  by_cases hlt : i < g.containers.length
  · replace hr : r ∈ ((g.containers ++ [(⟨it, false, 1, 0, 0, [], []⟩ : ContainerNode)]).getD i
        default).consumers := hr
    rw [getD_append_left _ _ _ hlt] at hr
    exact refInRange_mono (ext_createContainer g it) (hwf i hlt r hr)
  · replace hr : r ∈ ((g.containers ++ [(⟨it, false, 1, 0, 0, [], []⟩ : ContainerNode)]).getD i
        default).consumers := hr
    rw [getD_append_single _ _ _ (by omega)] at hr
    by_cases hie : i = g.containers.length
    · rw [if_pos hie] at hr
      exact absurd hr (List.not_mem_nil r)
    · rw [if_neg hie] at hr
      exact absurd hr (List.not_mem_nil r)

theorem consRefsWF_createTransferUnit {g : FactoryGraph} (hwf : ConsRefsWF g) (it : Item) :
    ConsRefsWF (createTransferUnit g it).1 := by
  intro i hi r hr
  exact refInRange_mono (ext_createTransferUnit g it) (hwf i hi r hr)

theorem transferTakeFrom_contLen {g g2 : FactoryGraph} {t c : Nat}
    (h : transferTakeFrom g t c = .ok g2) :
    g2.containers.length = g.containers.length := by
  obtain ⟨-, -, hg⟩ := transferTakeFrom_ok_inv g t c g2 h
  subst hg
  simp [setContainer, setTransferUnit]

theorem transferTakeFrom_tuLen {g g2 : FactoryGraph} {t c : Nat}
    (h : transferTakeFrom g t c = .ok g2) :
    g2.transferUnits.length = g.transferUnits.length := by
  obtain ⟨-, -, hg⟩ := transferTakeFrom_ok_inv g t c g2 h
  subst hg
  simp [setContainer, setTransferUnit]

/-- Inversion of a successful `transferUnit.outputTo(container)`. -/
theorem transferOutputToContainer_ok_inv (g : FactoryGraph) (t cont : Nat) (g' : FactoryGraph)
    (h : transferOutputToContainer g t cont = .ok g') :
    (g.containers.getD cont default).canAddIncomingLinks 1 = true ∧
    g' = setContainer
        (setTransferUnit g t { g.transferUnits.getD t default with
          output := some (.container cont) })
        cont { g.containers.getD cont default with
          producers := insertRef (g.containers.getD cont default).producers
            (.transferUnit t) } := by
  unfold transferOutputToContainer at h
  split at h
  · next hcond =>
    injection h with h
    exact ⟨hcond, h.symm⟩
  · exact absurd h (by simp)

theorem transferOutputToContainer_contLen {g g2 : FactoryGraph} {t c : Nat}
    (h : transferOutputToContainer g t c = .ok g2) :
    g2.containers.length = g.containers.length := by
  obtain ⟨-, hg⟩ := transferOutputToContainer_ok_inv g t c g2 h
  subst hg
  simp [setContainer, setTransferUnit]

theorem consRefsWF_transferTakeFrom {g g' : FactoryGraph} {t cont : Nat}
    (h : transferTakeFrom g t cont = .ok g') (hwf : ConsRefsWF g)
    (ht : t < g.transferUnits.length) : ConsRefsWF g' := by
  have hext : Ext g g' := ext_transferTakeFrom h
  obtain ⟨-, -, hg⟩ := transferTakeFrom_ok_inv g t cont g' h
  intro i hi r hr
  replace hi : i < g.containers.length := by
    rwa [transferTakeFrom_contLen h] at hi
  replace hr : r ∈ ((g.containers.set cont
      { g.containers.getD cont default with
        consumers := insertRef (g.containers.getD cont default).consumers
          (.transferUnit t) }).getD i default).consumers := by
    rw [hg] at hr
    exact hr
  rcases getD_set_cases g.containers cont i
      { g.containers.getD cont default with
        consumers := insertRef (g.containers.getD cont default).consumers
          (.transferUnit t) } with hsame | ⟨heq, hlt, hset⟩
  · rw [hsame] at hr
    exact refInRange_mono hext (hwf i hi r hr)
  · subst heq
    rw [hset] at hr
    rcases (mem_insertRef _ _ _).mp hr with hold | rfl
    · exact refInRange_mono hext (hwf cont hlt r hold)
    · simp only [refInRange, decide_eq_true_eq]
      rw [transferTakeFrom_tuLen h]
      exact ht

theorem consRefsWF_transferOutputToContainer {g g' : FactoryGraph} {t cont : Nat}
    (h : transferOutputToContainer g t cont = .ok g') (hwf : ConsRefsWF g) :
    ConsRefsWF g' := by
  have hext : Ext g g' := ext_transferOutputToContainer h
  obtain ⟨-, hg⟩ := transferOutputToContainer_ok_inv g t cont g' h
  intro i hi r hr
  replace hi : i < g.containers.length := by
    rwa [transferOutputToContainer_contLen h] at hi
  replace hr : r ∈ ((g.containers.set cont
      { g.containers.getD cont default with
        producers := insertRef (g.containers.getD cont default).producers
          (.transferUnit t) }).getD i default).consumers := by
    rw [hg] at hr
    exact hr
  rcases getD_set_cases g.containers cont i
      { g.containers.getD cont default with
        producers := insertRef (g.containers.getD cont default).producers
          (.transferUnit t) } with hsame | ⟨heq, hlt, hset⟩
  · rw [hsame] at hr
    exact refInRange_mono hext (hwf i hi r hr)
  · subst heq
    rw [hset] at hr
    exact refInRange_mono hext (hwf cont hlt r hr)

theorem pickLastTransfer_mem {g : FactoryGraph} {idxs : List Nat} {t : Nat}
    (h : pickLastTransfer g idxs = some t) :
    t ∈ idxs ∧ (g.transferUnits.getD t default).canAddIncomingLinks 1 = true := by
  rw [pickLastTransfer, foldl_overwrite_last, Option.or_none] at h
  obtain ⟨hne, heq⟩ := List.mem_getLast?_eq_getLast h
  have hmem : t ∈ idxs.filter
      (fun t => (g.transferUnits.getD t default).canAddIncomingLinks 1) := by
    rw [heq]
    exact List.getLast_mem hne
  rw [List.mem_filter] at hmem
  exact ⟨hmem.1, hmem.2⟩

theorem getTransferUnits_mem {g : FactoryGraph} {it : Item} {t : Nat}
    (h : t ∈ getTransferUnits g it) :
    t < g.transferUnits.length ∧ (g.transferUnits.getD t default).item = it := by
  unfold getTransferUnits at h
  rw [List.mem_filter] at h
  exact ⟨List.mem_range.mp h.1, by simpa using h.2⟩

/-- A successful `transferUnit.takeFrom(container)` makes the relay a consumer
of the container, so the relay's item covers the container. -/
theorem covered_after_takeFrom {X g2 : FactoryGraph} {t cIdx : Nat} {bitem : Item}
    (htk : transferTakeFrom X t cIdx = .ok g2)
    (hci : cIdx < X.containers.length) (ht : t < X.transferUnits.length)
    (hitem : (X.transferUnits.getD t default).item = bitem) :
    covered g2 cIdx bitem := by
  obtain ⟨-, -, hg⟩ := transferTakeFrom_ok_inv X t cIdx g2 htk
  subst hg
  refine ⟨.transferUnit t, ?_, ?_⟩
  · simp only [setContainer, setTransferUnit]
    rw [getD_set_self _ _ _ hci]
    exact self_mem_insertRef _ _
  · simp only [refItem, setContainer, setTransferUnit]
    rw [getD_set_self _ _ _ ht]
    exact hitem

/-- Shared step of the Byproduct Reconciler when no existing relay fits: after
the fresh relay (appended to graph `Q`) is wired `outputTo` some container and
`takeFrom` the byproduct's source container, the byproduct is covered and the
remaining loop finishes the job. -/
theorem byproductsLoop_none_step {db : ItemDatabase} {cIdx : Nat} {g Q : FactoryGraph}
    {bitem : Item} {Qi : Nat} {g' : FactoryGraph} {rest : List ItemQty}
    (hQ : Ext g Q) (hQwf : ConsRefsWF Q) (hQns : NewNonSplit g Q)
    (hQunits : Q.transferUnits = g.transferUnits ++ [⟨bitem, [], none⟩])
    (h : bindE (transferOutputToContainer Q g.transferUnits.length Qi)
        (fun g1 => bindE (transferTakeFrom g1 g.transferUnits.length cIdx)
          (fun g2 => byproductsLoop db cIdx rest g2)) = .ok g')
    (hci : cIdx < g.containers.length)
    (ihspec : ∀ g2, byproductsLoop db cIdx rest g2 = .ok g' →
        cIdx < g2.containers.length → ConsRefsWF g2 →
        Ext g2 g' ∧ NewNonSplit g2 g' ∧ ConsRefsWF g' ∧
          ∀ b ∈ rest, covered g' cIdx b.item) :
    Ext g g' ∧ NewNonSplit g g' ∧ ConsRefsWF g' ∧ covered g' cIdx bitem ∧
      ∀ b ∈ rest, covered g' cIdx b.item := by
  obtain ⟨g1, hout, h2⟩ := bindE_eq_ok h
  obtain ⟨g2, htk, hrest⟩ := bindE_eq_ok h2
  have hTlt : g.transferUnits.length < Q.transferUnits.length := by
    rw [hQunits]
    simp
  have hQitem : (Q.transferUnits.getD g.transferUnits.length default).item = bitem := by
    rw [hQunits, getD_append_single _ _ _ (le_refl _), if_pos rfl]
  have hext1 : Ext Q g1 := ext_transferOutputToContainer hout
  have hwf1 : ConsRefsWF g1 := consRefsWF_transferOutputToContainer hout hQwf
  have hciQ : cIdx < Q.containers.length := lt_of_lt_of_le hci hQ.contLen
  have hci1 : cIdx < g1.containers.length := lt_of_lt_of_le hciQ hext1.contLen
  have hT1 : g.transferUnits.length < g1.transferUnits.length := by
    obtain ⟨-, hg1⟩ := transferOutputToContainer_ok_inv Q g.transferUnits.length Qi g1 hout
    rw [hg1]
    simp only [setContainer, setTransferUnit, List.length_set]
    exact hTlt
  have hg1item : (g1.transferUnits.getD g.transferUnits.length default).item = bitem := by
    obtain ⟨-, hg1⟩ := transferOutputToContainer_ok_inv Q g.transferUnits.length Qi g1 hout
    rw [hg1]
    simp only [setContainer, setTransferUnit]
    rw [getD_set_self _ _ _ hTlt]
    exact hQitem
  have hns1 : NewNonSplit Q g1 :=
    newNonSplit_of_le (le_of_eq (transferOutputToContainer_contLen hout))
  have hwf2 : ConsRefsWF g2 := consRefsWF_transferTakeFrom htk hwf1 hT1
  have hext2 : Ext g1 g2 := ext_transferTakeFrom htk
  have hci2 : cIdx < g2.containers.length := lt_of_lt_of_le hci1 hext2.contLen
  have hns2 : NewNonSplit g1 g2 :=
    newNonSplit_of_le (le_of_eq (transferTakeFrom_contLen htk))
  have hcov2 : covered g2 cIdx bitem := covered_after_takeFrom htk hci1 hT1 hg1item
  obtain ⟨hextR, hnsR, hwfR, hcovR⟩ := ihspec g2 hrest hci2 hwf2
  refine ⟨ext_trans hQ (ext_trans hext1 (ext_trans hext2 hextR)), ?_, hwfR, ?_, hcovR⟩
  · exact newNonSplit_trans (newNonSplit_trans (newNonSplit_trans hQns hns1 hext1)
      hns2 hext2) hnsR hextR
  · exact covered_mono hextR hwf2 hci2 hcov2

/-- Specification of the byproduct loop over one container's byproduct list:
the graph only grows, new containers are not split, references stay
well-formed, and every listed byproduct ends up covered. -/
theorem byproductsLoop_spec (db : ItemDatabase) (cIdx : Nat) :
    ∀ (bs : List ItemQty) (g g' : FactoryGraph),
      byproductsLoop db cIdx bs g = .ok g' →
      cIdx < g.containers.length → ConsRefsWF g →
      Ext g g' ∧ NewNonSplit g g' ∧ ConsRefsWF g' ∧
        ∀ b ∈ bs, covered g' cIdx b.item := by
  intro bs
  induction bs with
  | nil =>
    intro g g' h hci hwf
    injection h with h
    subst h
    exact ⟨ext_refl g, newNonSplit_of_le (le_refl _), hwf, by simp⟩
  | cons b rest ih =>
    intro g g' h hci hwf
    simp only [byproductsLoop] at h
    split at h
    · next hany =>
      obtain ⟨hext, hns, hwf', hcov⟩ := ih g g' h hci hwf
      refine ⟨hext, hns, hwf', ?_⟩
      intro b' hb'
      rcases List.mem_cons.mp hb' with rfl | hb'
      · rw [List.any_eq_true] at hany
        obtain ⟨r, hr, hp⟩ := hany
        exact covered_mono hext hwf hci ⟨r, hr, of_decide_eq_true hp⟩
      · exact hcov b' hb'
    · next hany =>
      cases hpick : pickLastTransfer g (getTransferUnits g b.item) with
      | some t =>
        simp only [hpick] at h
        obtain ⟨g1, htk, hrest⟩ := bindE_eq_ok h
        obtain ⟨ht, htitem⟩ := getTransferUnits_mem (pickLastTransfer_mem hpick).1
        have hext1 : Ext g g1 := ext_transferTakeFrom htk
        have hwf1 : ConsRefsWF g1 := consRefsWF_transferTakeFrom htk hwf ht
        have hci1 : cIdx < g1.containers.length := lt_of_lt_of_le hci hext1.contLen
        have hcov1 : covered g1 cIdx b.item := covered_after_takeFrom htk hci ht htitem
        have hns1 : NewNonSplit g g1 :=
          newNonSplit_of_le (le_of_eq (transferTakeFrom_contLen htk))
        obtain ⟨hext2, hns2, hwf2, hcov2⟩ := ih g1 g' hrest hci1 hwf1
        refine ⟨ext_trans hext1 hext2, newNonSplit_trans hns1 hns2 hext2, hwf2, ?_⟩
        intro b' hb'
        rcases List.mem_cons.mp hb' with rfl | hb'
        · exact covered_mono hext2 hwf1 hci1 hcov1
        · exact hcov2 b' hb'
      | none =>
        simp only [hpick, createTransferUnit] at h
        cases hpickc : pickLastContainer
            { g with transferUnits := g.transferUnits ++ [⟨b.item, [], none⟩] }
            (getContainers
              { g with transferUnits := g.transferUnits ++ [⟨b.item, [], none⟩] } b.item) with
        | some ci =>
          simp only [hpickc] at h
          obtain ⟨hext', hns', hwf', hcb, hcrest⟩ := byproductsLoop_none_step
            (Q := { g with transferUnits := g.transferUnits ++ [⟨b.item, [], none⟩] })
            (ext_createTransferUnit g b.item)
            (consRefsWF_createTransferUnit hwf b.item)
            (newNonSplit_of_le (le_refl _)) rfl h hci
            (fun g2 h2 hci2 hwf2 => ih g2 g' h2 hci2 hwf2)
          refine ⟨hext', hns', hwf', ?_⟩
          intro b' hb'
          rcases List.mem_cons.mp hb' with rfl | hb'
          · exact hcb
          · exact hcrest b' hb'
        | none =>
          simp only [hpickc, createContainer] at h
          obtain ⟨hext', hns', hwf', hcb, hcrest⟩ := byproductsLoop_none_step
            (Q := { g with
              transferUnits := g.transferUnits ++ [⟨b.item, [], none⟩],
              containers := g.containers ++ [⟨b.item, false, 1, 0, 0, [], []⟩] })
            (ext_trans (ext_createTransferUnit g b.item)
              (ext_createContainer
                { g with transferUnits := g.transferUnits ++ [⟨b.item, [], none⟩] } b.item))
            (consRefsWF_createContainer (consRefsWF_createTransferUnit hwf b.item) b.item)
            (newNonSplit_createContainer
              { g with transferUnits := g.transferUnits ++ [⟨b.item, [], none⟩] } b.item)
            rfl h hci
            (fun g2 h2 hci2 hwf2 => ih g2 g' h2 hci2 hwf2)
          refine ⟨hext', hns', hwf', ?_⟩
          intro b' hb'
          rcases List.mem_cons.mp hb' with rfl | hb'
          · exact hcb
          · exact hcrest b' hb'

/-- Specification of the Byproduct Reconciler's pass from position `i`: the
graph only grows, new containers are not split, references stay well-formed,
and from position `i` on every non-ore container has all byproducts of its
recipe covered in the final graph. -/
theorem handleByproductsGo_spec (db : ItemDatabase) :
    ∀ (fuel i : Nat) (g g' : FactoryGraph),
      handleByproductsGo db fuel i g = .ok g' →
      ConsRefsWF g →
      Ext g g' ∧ NewNonSplit g g' ∧ ConsRefsWF g' ∧
        ∀ j, i ≤ j → j < g'.containers.length →
          isOre db (g'.containers.getD j default).item = false →
          ∀ b ∈ (findRecipe db (g'.containers.getD j default).item).byproducts,
            covered g' j b.item := by
  intro fuel
  induction fuel with
  | zero =>
    intro i g g' h hwf
    exact absurd h (by simp [handleByproductsGo])
  | succ fuel ih =>
    intro i g g' h hwf
    simp only [handleByproductsGo] at h
    split at h
    · next hi =>
      split at h
      · next hore =>
        obtain ⟨hext, hns, hwf', hcov⟩ := ih (i+1) g g' h hwf
        refine ⟨hext, hns, hwf', ?_⟩
        intro j hij hj hnore b hb
        rcases Nat.lt_or_ge i j with hlt | hge
        · exact hcov j hlt hj hnore b hb
        · have hji : i = j := le_antisymm hij hge
          subst hji
          rw [(hext.cont i hi).item] at hnore
          rw [hore] at hnore
          cases hnore
      · next hore =>
        obtain ⟨g1, hbl, hgo⟩ := bindE_eq_ok h
        obtain ⟨hext1, hns1, hwf1, hcov1⟩ := byproductsLoop_spec db i _ g g1 hbl hi hwf
        obtain ⟨hext2, hns2, hwf2, hcov2⟩ := ih (i+1) g1 g' hgo hwf1
        refine ⟨ext_trans hext1 hext2, newNonSplit_trans hns1 hns2 hext2, hwf2, ?_⟩
        intro j hij hj hnore b hb
        rcases Nat.lt_or_ge i j with hlt | hge
        · exact hcov2 j hlt hj hnore b hb
        · have hji : i = j := le_antisymm hij hge
          subst hji
          have hitem : (g'.containers.getD i default).item
              = (g.containers.getD i default).item :=
            ((ext_trans hext1 hext2).cont i hi).item
          rw [hitem] at hb
          have hci1 : i < g1.containers.length := lt_of_lt_of_le hi hext1.contLen
          exact covered_mono hext2 hwf1 hci1 (hcov1 b hb)
    · next hi =>
      injection h with h
      subst h
      refine ⟨ext_refl g, newNonSplit_of_le (le_refl _), hwf, ?_⟩
      intro j hij hj
      omega

/-- C6: after the Byproduct Reconciler has run, every storage node whose item
is not an ore has, for every byproduct of that item's recipe, at least one
consumer carrying the byproduct's item — the byproduct is consumed directly or
via a relay — given that the input graph's consumer references point at
existing nodes. -/
theorem handleByproducts_covers_byproducts (db : ItemDatabase) (fuel : Nat)
    (g g' : FactoryGraph) (h : handleByproducts db fuel g = .ok g')
    (hwf : ConsRefsWF g) :
    ∀ j, j < g'.containers.length →
      isOre db (g'.containers.getD j default).item = false →
      ∀ b ∈ (findRecipe db (g'.containers.getD j default).item).byproducts,
        covered g' j b.item := by
  intro j hj
  exact (handleByproductsGo_spec db fuel 0 g g' h hwf).2.2.2 j (Nat.zero_le j) hj

/-- A database with one ore (9) and one craftable item (1) whose recipe has
the ore as a byproduct. -/
def db6 : ItemDatabase := ⟨[9], [(1, ⟨⟨1, 1⟩, [], [⟨9, 2⟩], 1⟩)]⟩

/-- A one-container graph holding item 1, its byproduct not yet consumed. -/
def g6 : FactoryGraph := ⟨[⟨1, false, 1, 0, 0, [], []⟩], [], [], []⟩

/-- The graph the Byproduct Reconciler produces from `g6`. -/
def demo6 : FactoryGraph := (handleByproducts db6 10 g6).toOption.getD default

theorem handleByproducts_covers_byproducts_witness :
    handleByproducts db6 10 g6 = .ok demo6 ∧ ConsRefsWF g6 ∧
    (∀ j, j < demo6.containers.length →
      isOre db6 (demo6.containers.getD j default).item = false →
      ∀ b ∈ (findRecipe db6 (demo6.containers.getD j default).item).byproducts,
        covered demo6 j b.item) :=
  ⟨by decide, by decide,
   handleByproducts_covers_byproducts db6 10 g6 demo6 (by decide) (by decide)⟩

/-- A successful pass consumed strictly more fuel than containers it had left
to visit. -/
theorem handleByproductsGo_fuel_lb (db : ItemDatabase) :
    ∀ (fuel i : Nat) (g g' : FactoryGraph),
      handleByproductsGo db fuel i g = .ok g' →
      g'.containers.length < fuel + i := by
  intro fuel
  induction fuel with
  | zero =>
    intro i g g' h
    exact absurd h (by simp [handleByproductsGo])
  | succ fuel ih =>
    intro i g g' h
    simp only [handleByproductsGo] at h
    split at h
    · split at h
      · have := ih (i+1) g g' h
        omega
      · obtain ⟨g1, hbl, hgo⟩ := bindE_eq_ok h
        have := ih (i+1) g1 g' hgo
        omega
    · next hi =>
      injection h with h
      subst h
      omega

/-- The byproduct loop is the identity on a container whose byproducts are all
already covered: the "already handled" check short-circuits every entry. -/
theorem byproductsLoop_id (db : ItemDatabase) (cIdx : Nat) :
    ∀ (bs : List ItemQty) (g : FactoryGraph),
      (∀ b ∈ bs, covered g cIdx b.item) →
      byproductsLoop db cIdx bs g = .ok g := by
  intro bs
  induction bs with
  | nil => intro g _; rfl
  | cons b rest ih =>
    intro g hcov
    obtain ⟨r, hr, hitem⟩ := hcov b (List.mem_cons_self b rest)
    have hany : (g.containers.getD cIdx default).consumers.any
        (fun r => refItem g r = b.item) = true := by
      rw [List.any_eq_true]
      exact ⟨r, hr, decide_eq_true hitem⟩
    simp only [byproductsLoop, hany, if_true]
    exact ih g (fun b' hb' => hcov b' (List.mem_cons_of_mem b hb'))

/-- The Byproduct Reconciler's pass is the identity on a graph whose non-ore
containers all have their byproducts covered, given enough fuel. -/
theorem handleByproductsGo_id (db : ItemDatabase) :
    ∀ (fuel i : Nat) (g : FactoryGraph),
      g.containers.length < fuel + i → 1 ≤ fuel →
      (∀ j, i ≤ j → j < g.containers.length →
        isOre db (g.containers.getD j default).item = false →
        ∀ b ∈ (findRecipe db (g.containers.getD j default).item).byproducts,
          covered g j b.item) →
      handleByproductsGo db fuel i g = .ok g := by
  intro fuel
  induction fuel with
  | zero =>
    intro i g h1 h2 _
    omega
  | succ fuel ih =>
    intro i g hlen _ hcov
    simp only [handleByproductsGo]
    split
    · next hi =>
      split
      · next hore =>
        exact ih (i+1) g (by omega) (by omega)
          (fun j hj => hcov j (Nat.le_of_succ_le hj))
      · next hore =>
        have hore' : isOre db (g.containers.getD i default).item = false := by
          simpa using hore
        have hbl : byproductsLoop db i
            (findRecipe db (g.containers.getD i default).item).byproducts g = .ok g :=
          byproductsLoop_id db i _ g (fun b hb => hcov i (le_refl i) hi hore' b hb)
        rw [hbl]
        simp only [bindE_okArg]
        exact ih (i+1) g (by omega) (by omega)
          (fun j hj => hcov j (Nat.le_of_succ_le hj))
    · rfl

/-- C7: the Byproduct Reconciler is idempotent: rerunning it on a graph it
returned gives that graph back unchanged, so the second run adds no nodes,
adds no links and changes no flow, given that the input graph's consumer
references point at existing nodes. -/
theorem handleByproducts_idempotent (db : ItemDatabase) (fuel : Nat)
    (g g' : FactoryGraph) (h : handleByproducts db fuel g = .ok g')
    (hwf : ConsRefsWF g) :
    handleByproducts db fuel g' = .ok g' := by
  unfold handleByproducts at h ⊢
  have hlb := handleByproductsGo_fuel_lb db fuel 0 g g' h
  have hfuel : 1 ≤ fuel := by
    cases fuel with
    | zero => exact absurd h (by simp [handleByproductsGo])
    | succ n => omega
  obtain ⟨-, -, hwf', hcov⟩ := handleByproductsGo_spec db fuel 0 g g' h hwf
  exact handleByproductsGo_id db fuel 0 g' (by omega) hfuel (fun j hj => hcov j hj)

theorem handleByproducts_idempotent_witness :
    handleByproducts db6 10 g6 = .ok demo6 ∧ ConsRefsWF g6 ∧
    handleByproducts db6 10 demo6 = .ok demo6 :=
  ⟨by decide, by decide,
   handleByproducts_idempotent db6 10 g6 demo6 (by decide) (by decide)⟩

/-! ## Split containers: every split node keeps at least one outgoing link -/

/-- Every split container has a consumer, except possibly those in the
pending set `P` (containers just returned by the synthesizer, which the
caller is about to take from). -/
def SplitsOkP (g : FactoryGraph) (P : Nat → Prop) : Prop :=
  ∀ i, i < g.containers.length → (g.containers.getD i default).isSplit = true →
    (g.containers.getD i default).consumers ≠ [] ∨ P i

theorem splitsOkP_weaken {g : FactoryGraph} {P Q : Nat → Prop}
    (h : SplitsOkP g P) (hpq : ∀ i, P i → Q i) : SplitsOkP g Q := by
  intro i hi hsplit
  rcases h i hi hsplit with hne | hp
  · exact Or.inl hne
  · exact Or.inr (hpq i hp)

theorem splitsOkP_mono_ext {g g' : FactoryGraph} {P : Nat → Prop} (hext : Ext g g')
    (hns : NewNonSplit g g') (h : SplitsOkP g P) : SplitsOkP g' P := by
  intro i hi hsplit
  by_cases hlt : i < g.containers.length
  · have hc := hext.cont i hlt
    rw [hc.isSplit] at hsplit
    rcases h i hlt hsplit with hne | hp
    · refine Or.inl (fun hnil => hne ?_)
      exact List.sublist_nil.mp (hnil ▸ hc.consumers)
    · exact Or.inr hp
  · rw [hns i (by omega) hi] at hsplit
    cases hsplit

theorem splitsOkP_createSplitContainer {g : FactoryGraph} {P : Nat → Prop}
    (h : SplitsOkP g P) (it : Item) (sp : ℚ) :
    SplitsOkP (createSplitContainer g it sp).1
      (fun i => P i ∨ i = g.containers.length) := by
  intro i hi hsplit
  by_cases hlt : i < g.containers.length
  · replace hsplit : ((g.containers ++ [(⟨it, true, sp, 0, 0, [], []⟩ : ContainerNode)]).getD i
        default).isSplit = true := hsplit
    rw [getD_append_left _ _ _ hlt] at hsplit
    rcases h i hlt hsplit with hne | hp
    · refine Or.inl ?_
      show ((g.containers ++ [(⟨it, true, sp, 0, 0, [], []⟩ : ContainerNode)]).getD i
        default).consumers ≠ []
      rw [getD_append_left _ _ _ hlt]
      exact hne
    · exact Or.inr (Or.inl hp)
  · by_cases hie : i = g.containers.length
    · exact Or.inr (Or.inr hie)
    · replace hsplit : ((g.containers ++ [(⟨it, true, sp, 0, 0, [], []⟩ : ContainerNode)]).getD i
        default).isSplit = true := hsplit
      rw [getD_append_single _ _ _ (by omega), if_neg hie] at hsplit
      cases hsplit

theorem insertRef_ne_nil {α : Type} [DecidableEq α] (l : List α) (a : α) :
    insertRef l a ≠ [] := by
  unfold insertRef
  split_ifs with h
  · exact List.ne_nil_of_mem h
  · simp

/-- Inversion of a successful `industry.takeFrom(container)`. -/
theorem industryTakeFromContainer_ok_inv (g : FactoryGraph) (ind cont : Nat)
    (g' : FactoryGraph) (h : industryTakeFromContainer g ind cont = .ok g') :
    (g.containers.getD cont default).canAddOutgoingLinks 1 = true ∧
    g' = setContainer
        (setIndustry g ind { g.industries.getD ind default with
          inputs := insertRef (g.industries.getD ind default).inputs (.container cont) })
        cont { g.containers.getD cont default with
          consumers := insertRef (g.containers.getD cont default).consumers
            (.industry ind) } := by
  unfold industryTakeFromContainer at h
  split at h
  · next hcond =>
    injection h with h
    exact ⟨hcond, h.symm⟩
  · exact absurd h (by simp)

theorem industryTakeFromContainer_contLen {g g2 : FactoryGraph} {ind c : Nat}
    (h : industryTakeFromContainer g ind c = .ok g2) :
    g2.containers.length = g.containers.length := by
  obtain ⟨-, hg⟩ := industryTakeFromContainer_ok_inv g ind c g2 h
  subst hg
  simp [setContainer, setIndustry]

theorem industryOutputTo_contLen {g g2 : FactoryGraph} {ind c : Nat}
    (h : industryOutputTo g ind c = .ok g2) :
    g2.containers.length = g.containers.length := by
  unfold industryOutputTo at h
  split at h
  · injection h with h
    subst h
    simp [setContainer, setIndustry]
  · exact absurd h (by simp)

theorem industryTakeFromTransferContainer_cont {g g2 : FactoryGraph} {ind tc : Nat}
    (h : industryTakeFromTransferContainer g ind tc = .ok g2) :
    g2.containers = g.containers := by
  unfold industryTakeFromTransferContainer at h
  split at h
  · injection h with h
    subst h
    rfl
  · exact absurd h (by simp)

theorem transferOutputToTransferContainer_cont {g g2 : FactoryGraph} {t tc : Nat}
    (h : transferOutputToTransferContainer g t tc = .ok g2) :
    g2.containers = g.containers := by
  unfold transferOutputToTransferContainer at h
  split at h
  · injection h with h
    subst h
    rfl
  · exact absurd h (by simp)

theorem getContainers_mem {g : FactoryGraph} {it : Item} {i : Nat}
    (h : i ∈ getContainers g it) :
    i < g.containers.length ∧ (g.containers.getD i default).item = it := by
  unfold getContainers at h
  rw [List.mem_filter] at h
  exact ⟨List.mem_range.mp h.1, by simpa using h.2⟩

theorem findGrowableContainer_mem (db : ItemDatabase) (g : FactoryGraph) (rcp : Recipe)
    (rate : ℚ) :
    ∀ (l : List Nat) (pa : Nat × ℤ),
      findGrowableContainer db g rcp rate l = some pa → pa.1 ∈ l := by
  intro l
  induction l with
  | nil =>
    intro pa h
    exact absurd h (by simp [findGrowableContainer])
  | cons i rest ih =>
    intro pa h
    simp only [findGrowableContainer] at h
    split at h
    · injection h with h
      subst h
      exact List.mem_cons_self i rest
    · exact List.mem_cons_of_mem i (ih pa h)

theorem mem_getD {α : Type} [Inhabited α] {l : List α} {a : α} (h : a ∈ l) :
    ∃ i, i < l.length ∧ l.getD i default = a := by
  obtain ⟨i, hi, hget⟩ := List.mem_iff_getElem.mp h
  refine ⟨i, hi, ?_⟩
  rw [List.getD_eq_getElem?_getD, List.getElem?_eq_getElem hi]
  simpa using hget

theorem newNonSplit_createOutput (g : FactoryGraph) (it : Item) (rate maintain : ℚ) :
    NewNonSplit g (createOutput g it rate maintain).1 := by
  intro i h1 h2
  show ((g.containers ++ [(⟨it, false, 1, rate, maintain, [], []⟩ : ContainerNode)]).getD i
      default).isSplit = false
  rw [getD_append_single _ _ _ h1]
  split
  · rfl
  · rfl

/-- Pending-set behaviour of a synthesizer function: the graph only grows and
every split container keeps a consumer, except possibly the freshly returned
containers, which the caller is about to take from. -/
def ProduceOk (f : ProduceFun) : Prop :=
  ∀ (it : Item) (rate : ℚ) (g : FactoryGraph) (refs : List Nat) (g' : FactoryGraph)
    (P : Nat → Prop), f it rate g = .ok (refs, g') → SplitsOkP g P →
    Ext g g' ∧ SplitsOkP g' (fun i => P i ∨ i ∈ refs)

theorem inputsLoop_splits (ind : Nat) :
    ∀ (refs : List Nat) (g g' : FactoryGraph) (P : Nat → Prop),
      inputsLoop ind refs g = .ok g' →
      SplitsOkP g (fun i => P i ∨ i ∈ refs) →
      Ext g g' ∧ SplitsOkP g' P ∧ g'.containers.length = g.containers.length := by
  intro refs
  induction refs with
  | nil =>
    intro g g' P h hsp
    injection h with h
    subst h
    exact ⟨ext_refl g,
      splitsOkP_weaken hsp (fun i hp => hp.resolve_right (List.not_mem_nil i)), rfl⟩
  | cons r rest ih =>
    intro g g' P h hsp
    simp only [inputsLoop] at h
    obtain ⟨g1, htk, hrest⟩ := bindE_eq_ok h
    obtain ⟨hcap, hg1⟩ := industryTakeFromContainer_ok_inv g ind r g1 htk
    subst hg1
    have hsp1 : SplitsOkP (setContainer (setIndustry g ind
        { g.industries.getD ind default with
          inputs := insertRef (g.industries.getD ind default).inputs (.container r) }) r
        { g.containers.getD r default with
          consumers := insertRef (g.containers.getD r default).consumers (.industry ind) })
        (fun i => P i ∨ i ∈ rest) := by
      intro i hi hsplit
      replace hi : i < g.containers.length := by
        simpa [setContainer, setIndustry] using hi
      by_cases hir : i = r
      · subst hir
        refine Or.inl ?_
        show ((g.containers.set i { g.containers.getD i default with
            consumers := insertRef (g.containers.getD i default).consumers
              (.industry ind) }).getD i default).consumers ≠ []
        rw [getD_set_self _ _ _ hi]
        exact insertRef_ne_nil _ _
      · replace hsplit : ((g.containers.set r { g.containers.getD r default with
            consumers := insertRef (g.containers.getD r default).consumers
              (.industry ind) }).getD i default).isSplit = true := hsplit
        rw [getD_set_ne _ _ _ _ (Ne.symm hir)] at hsplit
        rcases hsp i hi hsplit with hne | hp
        · refine Or.inl ?_
          show ((g.containers.set r { g.containers.getD r default with
              consumers := insertRef (g.containers.getD r default).consumers
                (.industry ind) }).getD i default).consumers ≠ []
          rw [getD_set_ne _ _ _ _ (Ne.symm hir)]
          exact hne
        · rcases hp with hp | hmem
          · exact Or.inr (Or.inl hp)
          · rcases List.mem_cons.mp hmem with rfl | hmem
            · exact absurd rfl hir
            · exact Or.inr (Or.inr hmem)
    obtain ⟨hext2, hsp2, hlen2⟩ := ih _ g' P hrest hsp1
    refine ⟨ext_trans (ext_industryTakeFromContainer htk) hext2, hsp2, ?_⟩
    rw [hlen2]
    simp [setContainer, setIndustry]

theorem ingredientsLoop_splits (f : ProduceFun) (hf : ProduceOk f) (ind : Nat) (time : ℚ) :
    ∀ (iqs : List ItemQty) (g g' : FactoryGraph) (P : Nat → Prop),
      ingredientsLoop f ind time iqs g = .ok g' → SplitsOkP g P →
      Ext g g' ∧ SplitsOkP g' P := by
  intro iqs
  induction iqs with
  | nil =>
    intro g g' P h hsp
    injection h with h
    subst h
    exact ⟨ext_refl g, hsp⟩
  | cons iq rest ih =>
    intro g g' P h hsp
    simp only [ingredientsLoop] at h
    obtain ⟨p, hp, h2⟩ := bindE_eq_ok h
    obtain ⟨g2, hil, hrest⟩ := bindE_eq_ok h2
    obtain ⟨hext1, hsp1⟩ := hf iq.item (iq.quantity / time) g p.1 p.2 P hp hsp
    obtain ⟨hext2, hsp2, hlen2⟩ := inputsLoop_splits ind p.1 p.2 g2 P hil hsp1
    obtain ⟨hext3, hsp3⟩ := ih g2 g' P hrest hsp2
    exact ⟨ext_trans hext1 (ext_trans hext2 hext3), hsp3⟩

theorem industriesLoop_splits (f : ProduceFun) (hf : ProduceOk f) (it : Item) (rcp : Recipe)
    (outputs : List Nat) :
    ∀ (count i : Nat) (g g' : FactoryGraph) (P : Nat → Prop),
      industriesLoop f it rcp outputs count i g = .ok g' → SplitsOkP g P →
      Ext g g' ∧ SplitsOkP g' P := by
  intro count
  induction count with
  | zero =>
    intro i g g' P h hsp
    injection h with h
    subst h
    exact ⟨ext_refl g, hsp⟩
  | succ count ih =>
    intro i g g' P h hsp
    simp only [industriesLoop] at h
    obtain ⟨g1, hout, h2⟩ := bindE_eq_ok h
    obtain ⟨g2, hing, hrest⟩ := bindE_eq_ok h2
    have hspc : SplitsOkP (createIndustry g it).1 P := fun j hj hsplit => hsp j hj hsplit
    have hsp1 : SplitsOkP g1 P := splitsOkP_mono_ext (ext_industryOutputTo hout)
      (newNonSplit_of_le (le_of_eq (industryOutputTo_contLen hout))) hspc
    obtain ⟨hext2, hsp2⟩ :=
      ingredientsLoop_splits f hf (createIndustry g it).2 rcp.time rcp.ingredients g1 g2 P
        hing hsp1
    obtain ⟨hext3, hsp3⟩ := ih (i+1) g2 g' P hrest hsp2
    exact ⟨ext_trans (ext_createIndustry g it)
      (ext_trans (ext_industryOutputTo hout) (ext_trans hext2 hext3)), hsp3⟩

theorem splitLoop_splits (it : Item) (a e : ℤ) :
    ∀ (k : Nat) (rem : ℤ) (g : FactoryGraph) (acc : List Nat) (P : Nat → Prop),
      SplitsOkP g (fun i => P i ∨ i ∈ acc) →
      Ext g (splitLoop it a e k rem g acc).1 ∧
      SplitsOkP (splitLoop it a e k rem g acc).1
        (fun i => P i ∨ i ∈ (splitLoop it a e k rem g acc).2) := by
  intro k
  induction k with
  | zero =>
    intro rem g acc P hsp
    exact ⟨ext_refl g, hsp⟩
  | succ k ih =>
    intro rem g acc P hsp
    rw [splitLoop_succ]
    have hspc := splitsOkP_createSplitContainer hsp it (((min e rem : ℤ) : ℚ) / (a : ℚ))
    have hspc2 : SplitsOkP
        (createSplitContainer g it (((min e rem : ℤ) : ℚ) / (a : ℚ))).1
        (fun i => P i ∨ i ∈
          acc ++ [(createSplitContainer g it (((min e rem : ℤ) : ℚ) / (a : ℚ))).2]) := by
      refine splitsOkP_weaken hspc (fun i hp => ?_)
      rcases hp with (hp | hmem) | hie
      · exact Or.inl hp
      · exact Or.inr (List.mem_append_left _ hmem)
      · refine Or.inr (List.mem_append_right _ ?_)
        subst hie
        simp [createSplitContainer]
    obtain ⟨hext, hsp'⟩ := ih (rem - min e rem) _ _ P hspc2
    exact ⟨ext_trans (ext_createSplitContainer g it _) hext, hsp'⟩

theorem produce_reuse_branch {f : ProduceFun} (hf : ProduceOk f) {it : Item} {rcp : Recipe}
    {outs : List Nat} {cnt : Nat} {g g1 : FactoryGraph} {P : Nat → Prop}
    (hil : industriesLoop f it rcp outs cnt 0 g = .ok g1) (hsp : SplitsOkP g P) :
    Ext g g1 ∧ SplitsOkP g1 (fun i => P i ∨ i ∈ outs) := by
  obtain ⟨hextI, hspI⟩ := industriesLoop_splits f hf it rcp outs cnt 0 g g1 P hil hsp
  exact ⟨hextI, splitsOkP_weaken hspI (fun i hp => Or.inl hp)⟩

theorem produce_create_branch {f : ProduceFun} (hf : ProduceOk f) {it : Item} {rcp : Recipe}
    {cnt : Nat} {g g1 : FactoryGraph} {P : Nat → Prop}
    (hil : industriesLoop f it rcp [(createContainer g it).2] cnt 0
      (createContainer g it).1 = .ok g1)
    (hsp : SplitsOkP g P) :
    Ext g g1 ∧ SplitsOkP g1 (fun i => P i ∨ i ∈ [(createContainer g it).2]) := by
  have hsp0 : SplitsOkP (createContainer g it).1 P :=
    splitsOkP_mono_ext (ext_createContainer g it) (newNonSplit_createContainer g it) hsp
  obtain ⟨hextI, hspI⟩ := industriesLoop_splits f hf it rcp _ cnt 0 _ g1 P hil hsp0
  exact ⟨ext_trans (ext_createContainer g it) hextI,
    splitsOkP_weaken hspI (fun i hp => Or.inl hp)⟩

theorem produce_split_branch {f : ProduceFun} (hf : ProduceOk f) {it : Item} {rcp : Recipe}
    {a e : ℤ} {k cnt : Nat} {g g1 : FactoryGraph} {P : Nat → Prop}
    (hil : industriesLoop f it rcp (splitLoop it a e k a g []).2 cnt 0
      (splitLoop it a e k a g []).1 = .ok g1)
    (hsp : SplitsOkP g P) :
    Ext g g1 ∧ SplitsOkP g1 (fun i => P i ∨ i ∈ (splitLoop it a e k a g []).2) := by
  obtain ⟨hextS, hspS⟩ := splitLoop_splits it a e k a g [] P
    (splitsOkP_weaken hsp (fun i hp => Or.inl hp))
  obtain ⟨hextI, hspI⟩ := industriesLoop_splits f hf it rcp _ cnt 0 _ g1 _ hil hspS
  exact ⟨ext_trans hextS hextI, hspI⟩

theorem produce_splits (db : ItemDatabase) :
    ∀ fuel : Nat, ProduceOk (fun it rate g => produce db fuel it rate g) := by
  intro fuel
  induction fuel with
  | zero =>
    intro it rate g refs g' P h
    exact absurd h (by simp [produce])
  | succ fuel ih =>
    intro it rate g refs g' P h hsp
    simp only [produce] at h
    split at h
    · split at h
      · injection h with h
        rw [Prod.mk.injEq] at h
        obtain ⟨hrefs, hg⟩ := h
        subst hrefs
        subst hg
        exact ⟨ext_refl g, splitsOkP_weaken hsp (fun j hp => Or.inl hp)⟩
      · injection h with h
        rw [Prod.mk.injEq] at h
        obtain ⟨hrefs, hg⟩ := h
        subst hrefs
        subst hg
        exact ⟨ext_createContainer g it,
          splitsOkP_weaken (splitsOkP_mono_ext (ext_createContainer g it)
            (newNonSplit_createContainer g it) hsp) (fun j hp => Or.inl hp)⟩
    · split at h
      · injection h with h
        rw [Prod.mk.injEq] at h
        obtain ⟨hrefs, hg⟩ := h
        subst hrefs
        subst hg
        exact ⟨ext_refl g, splitsOkP_weaken hsp (fun j hp => Or.inl hp)⟩
      · split at h
        · obtain ⟨g1, hil, hok⟩ := bindE_eq_ok h
          injection hok with hok
          rw [Prod.mk.injEq] at hok
          obtain ⟨hrefs, hg⟩ := hok
          subst hrefs
          subst hg
          exact produce_reuse_branch ih hil hsp
        · split at h
          · obtain ⟨g1, hil, hok⟩ := bindE_eq_ok h
            injection hok with hok
            rw [Prod.mk.injEq] at hok
            obtain ⟨hrefs, hg⟩ := hok
            subst hrefs
            subst hg
            exact produce_split_branch ih hil hsp
          · obtain ⟨g1, hil, hok⟩ := bindE_eq_ok h
            injection hok with hok
            rw [Prod.mk.injEq] at hok
            obtain ⟨hrefs, hg⟩ := hok
            subst hrefs
            subst hg
            exact produce_create_branch ih hil hsp

/-- A pending container that is not split can be dropped from the pending
set. -/
theorem splitsOkP_clear_nonsplit {g g1 : FactoryGraph} {P : Nat → Prop} {j : Nat}
    (hext : Ext g g1) (hj : j < g.containers.length)
    (hns : (g.containers.getD j default).isSplit = false)
    (h : SplitsOkP g1 (fun i => P i ∨ i ∈ [j])) : SplitsOkP g1 P := by
  intro i hi hsplit
  rcases h i hi hsplit with hne | hp | hmem
  · exact Or.inl hne
  · exact Or.inr hp
  · obtain heq := List.mem_singleton.mp hmem
    subst heq
    have hst := (hext.cont i hj).isSplit
    rw [hns] at hst
    rw [hsplit] at hst
    cases hst

theorem createOutput_new_nonsplit (g : FactoryGraph) (it : Item) (rate maintain : ℚ) :
    ((createOutput g it rate maintain).1.containers.getD
      (createOutput g it rate maintain).2 default).isSplit = false := by
  show ((g.containers ++ [(⟨it, false, 1, rate, maintain, [], []⟩ : ContainerNode)]).getD
      g.containers.length default).isSplit = false
  rw [getD_append_single _ _ _ (le_refl _), if_pos rfl]

theorem createOutput_snd_lt (g : FactoryGraph) (it : Item) (rate maintain : ℚ) :
    (createOutput g it rate maintain).2 < (createOutput g it rate maintain).1.containers.length := by
  simp [createOutput]

theorem requirementsLoop_splits (db : ItemDatabase) (fuel : Nat) :
    ∀ (reqs : List Requirement) (g g' : FactoryGraph) (P : Nat → Prop),
      requirementsLoop db fuel reqs g = .ok g' → SplitsOkP g P →
      Ext g g' ∧ SplitsOkP g' P := by
  intro reqs
  induction reqs with
  | nil =>
    intro g g' P h hsp
    injection h with h
    subst h
    exact ⟨ext_refl g, hsp⟩
  | cons req rest ih =>
    intro g g' P h hsp
    simp only [requirementsLoop] at h
    obtain ⟨g1, hil, hrest⟩ := bindE_eq_ok h
    have hsp0 : SplitsOkP (createOutput g req.item
        ((findRecipe db req.item).product.quantity / (findRecipe db req.item).time
          * (req.count : ℚ)) req.maintain).1 P :=
      splitsOkP_mono_ext (ext_createOutput g req.item _ _)
        (newNonSplit_createOutput g req.item _ _) hsp
    obtain ⟨hextI, hspI⟩ := produce_reuse_branch (produce_splits db fuel) hil hsp0
    have hsp1 : SplitsOkP g1 P :=
      splitsOkP_clear_nonsplit hextI (createOutput_snd_lt g req.item _ _)
        (createOutput_new_nonsplit g req.item _ _) hspI
    obtain ⟨hextR, hspR⟩ := ih g1 g' P hrest hsp1
    exact ⟨ext_trans (ext_createOutput g req.item _ _) (ext_trans hextI hextR), hspR⟩

theorem byproductsLoop_extNS (db : ItemDatabase) (cIdx : Nat) :
    ∀ (bs : List ItemQty) (g g' : FactoryGraph),
      byproductsLoop db cIdx bs g = .ok g' →
      Ext g g' ∧ NewNonSplit g g' := by
  intro bs
  induction bs with
  | nil =>
    intro g g' h
    injection h with h
    subst h
    exact ⟨ext_refl g, newNonSplit_of_le (le_refl _)⟩
  | cons b rest ih =>
    intro g g' h
    simp only [byproductsLoop] at h
    split at h
    · exact ih g g' h
    · cases hpick : pickLastTransfer g (getTransferUnits g b.item) with
      | some t =>
        simp only [hpick] at h
        obtain ⟨g1, htk, hrest⟩ := bindE_eq_ok h
        obtain ⟨hext2, hns2⟩ := ih g1 g' hrest
        exact ⟨ext_trans (ext_transferTakeFrom htk) hext2,
          newNonSplit_trans (newNonSplit_of_le (le_of_eq (transferTakeFrom_contLen htk)))
            hns2 hext2⟩
      | none =>
        simp only [hpick, createTransferUnit] at h
        cases hpickc : pickLastContainer
            { g with transferUnits := g.transferUnits ++ [⟨b.item, [], none⟩] }
            (getContainers { g with transferUnits := g.transferUnits ++ [⟨b.item, [], none⟩] }
              b.item) with
        | some ci =>
          simp only [hpickc] at h
          obtain ⟨g1, hout, h2⟩ := bindE_eq_ok h
          obtain ⟨g2, htk, hrest⟩ := bindE_eq_ok h2
          obtain ⟨hext3, hns3⟩ := ih g2 g' hrest
          have e1 := ext_transferOutputToContainer hout
          have e2 := ext_transferTakeFrom htk
          have nsQ : NewNonSplit g
              { g with transferUnits := g.transferUnits ++ [⟨b.item, [], none⟩] } :=
            newNonSplit_of_le (le_refl _)
          have ns1 : NewNonSplit
              { g with transferUnits := g.transferUnits ++ [⟨b.item, [], none⟩] } g1 :=
            newNonSplit_of_le (le_of_eq (transferOutputToContainer_contLen hout))
          have ns2 : NewNonSplit g1 g2 :=
            newNonSplit_of_le (le_of_eq (transferTakeFrom_contLen htk))
          refine ⟨ext_trans (ext_createTransferUnit g b.item)
            (ext_trans e1 (ext_trans e2 hext3)), ?_⟩
          exact newNonSplit_trans
            (newNonSplit_trans (newNonSplit_trans nsQ ns1 e1) ns2 e2) hns3 hext3
        | none =>
          simp only [hpickc, createContainer] at h
          obtain ⟨g1, hout, h2⟩ := bindE_eq_ok h
          obtain ⟨g2, htk, hrest⟩ := bindE_eq_ok h2
          obtain ⟨hext3, hns3⟩ := ih g2 g' hrest
          have e1 := ext_transferOutputToContainer hout
          have e2 := ext_transferTakeFrom htk
          have e0 : Ext g { g with
              transferUnits := g.transferUnits ++ [⟨b.item, [], none⟩],
              containers := g.containers ++ [⟨b.item, false, 1, 0, 0, [], []⟩] } :=
            ext_trans (ext_createTransferUnit g b.item)
              (ext_createContainer
                { g with transferUnits := g.transferUnits ++ [⟨b.item, [], none⟩] } b.item)
          have n0 : NewNonSplit g { g with
              transferUnits := g.transferUnits ++ [⟨b.item, [], none⟩],
              containers := g.containers ++ [⟨b.item, false, 1, 0, 0, [], []⟩] } :=
            newNonSplit_createContainer
              { g with transferUnits := g.transferUnits ++ [⟨b.item, [], none⟩] } b.item
          have ns1 : NewNonSplit { g with
              transferUnits := g.transferUnits ++ [⟨b.item, [], none⟩],
              containers := g.containers ++ [⟨b.item, false, 1, 0, 0, [], []⟩] } g1 :=
            newNonSplit_of_le (le_of_eq (transferOutputToContainer_contLen hout))
          have ns2 : NewNonSplit g1 g2 :=
            newNonSplit_of_le (le_of_eq (transferTakeFrom_contLen htk))
          refine ⟨ext_trans e0 (ext_trans e1 (ext_trans e2 hext3)), ?_⟩
          exact newNonSplit_trans
            (newNonSplit_trans (newNonSplit_trans n0 ns1 e1) ns2 e2) hns3 hext3

theorem handleByproductsGo_extNS (db : ItemDatabase) :
    ∀ (fuel i : Nat) (g g' : FactoryGraph),
      handleByproductsGo db fuel i g = .ok g' →
      Ext g g' ∧ NewNonSplit g g' := by
  intro fuel
  induction fuel with
  | zero =>
    intro i g g' h
    exact absurd h (by simp [handleByproductsGo])
  | succ fuel ih =>
    intro i g g' h
    simp only [handleByproductsGo] at h
    split at h
    · split at h
      · exact ih (i+1) g g' h
      · obtain ⟨g1, hbl, hgo⟩ := bindE_eq_ok h
        obtain ⟨e1, n1⟩ := byproductsLoop_extNS db i _ g g1 hbl
        obtain ⟨e2, n2⟩ := ih (i+1) g1 g' hgo
        exact ⟨ext_trans e1 e2, newNonSplit_trans n1 n2 e2⟩
    · injection h with h
      subst h
      exact ⟨ext_refl g, newNonSplit_of_le (le_refl _)⟩

/-- The Link-Limit Resolver's effect on containers: the container registry
keeps its length, split flags are unchanged, and a container with a consumer
keeps at least one (rewiring replaces a removed industry link by a relay
link). -/
def KeepSplits (g g' : FactoryGraph) : Prop :=
  g'.containers.length = g.containers.length ∧
  ∀ i, i < g.containers.length →
    (g'.containers.getD i default).isSplit = (g.containers.getD i default).isSplit ∧
    ((g.containers.getD i default).consumers ≠ [] →
      (g'.containers.getD i default).consumers ≠ [])

theorem keepSplits_refl (g : FactoryGraph) : KeepSplits g g :=
  ⟨rfl, fun _ _ => ⟨rfl, id⟩⟩

theorem keepSplits_trans {g1 g2 g3 : FactoryGraph} (h12 : KeepSplits g1 g2)
    (h23 : KeepSplits g2 g3) : KeepSplits g1 g3 := by
  refine ⟨h23.1.trans h12.1, fun i hi => ?_⟩
  have h2i : i < g2.containers.length := by
    rw [h12.1]
    exact hi
  exact ⟨(h23.2 i h2i).1.trans (h12.2 i hi).1,
    fun hne => (h23.2 i h2i).2 ((h12.2 i hi).2 hne)⟩

theorem keepSplits_of_contEq {g g' : FactoryGraph} (h : g'.containers = g.containers) :
    KeepSplits g g' := by
  refine ⟨by rw [h], fun i hi => ?_⟩
  rw [h]
  exact ⟨rfl, id⟩

/-- The combined detach-and-relay step of the rewiring loop keeps the split
flags and keeps the rewired container's consumer set nonempty. -/
theorem keepSplits_rewire {g g3 : FactoryGraph} {indIdx ci t : Nat}
    (h : transferTakeFrom (detachInput g indIdx ci) t ci = .ok g3) :
    KeepSplits g g3 := by
  obtain ⟨-, -, hg⟩ := transferTakeFrom_ok_inv _ t ci g3 h
  subst hg
  constructor
  · simp [setContainer, setTransferUnit, detachInput, setIndustry]
  · intro i hi
    by_cases hic : i = ci
    · subst hic
      constructor
      · simp only [setContainer, setTransferUnit, detachInput, setIndustry, List.set_set]
        rw [getD_set_self _ _ _ hi]
        show (((g.containers.set i { g.containers.getD i default with
            consumers := (g.containers.getD i default).consumers.erase
              (.industry indIdx) }).getD i default)).isSplit
          = ((g.containers.getD i default)).isSplit
        rw [getD_set_self _ _ _ hi]
      · intro hne
        simp only [setContainer, setTransferUnit, detachInput, setIndustry, List.set_set]
        rw [getD_set_self _ _ _ hi]
        exact insertRef_ne_nil _ _
    · constructor
      · simp only [setContainer, setTransferUnit, detachInput, setIndustry, List.set_set]
        rw [getD_set_ne _ _ _ _ (Ne.symm hic)]
      · intro hne
        simp only [setContainer, setTransferUnit, detachInput, setIndustry, List.set_set]
        rw [getD_set_ne _ _ _ _ (Ne.symm hic)]
        exact hne

theorem rewireLoop_keepSplits (indIdx : Nat) :
    ∀ (units : List Nat) (g g' : FactoryGraph),
      rewireLoop indIdx units g = .ok g' → KeepSplits g g' := by
  intro units
  induction units with
  | nil =>
    intro g g' h
    injection h with h
    subst h
    exact keepSplits_refl g
  | cons t rest ih =>
    intro g g' h
    simp only [rewireLoop] at h
    split at h
    · obtain ⟨g3, htk, hrest⟩ := bindE_eq_ok h
      exact keepSplits_trans (keepSplits_rewire htk) (ih g3 g' hrest)
    · exact absurd h (by simp)

theorem tcUnitsLoop_cont :
    ∀ (items : List Item) (tcIdx : Nat) (g g' : FactoryGraph),
      tcUnitsLoop items tcIdx g = .ok g' → g'.containers = g.containers := by
  intro items
  induction items with
  | nil =>
    intro tcIdx g g' h
    injection h with h
    subst h
    rfl
  | cons it rest ih =>
    intro tcIdx g g' h
    simp only [tcUnitsLoop, createTransferUnit] at h
    obtain ⟨g1, hout, hrest⟩ := bindE_eq_ok h
    rw [ih tcIdx g1 g' hrest, transferOutputToTransferContainer_cont hout]

theorem handleIndustryLinksStep_keepSplits {s s' : ItemDatabase × FactoryGraph} {i : Nat}
    (h : handleIndustryLinksStep s i = .ok s') : KeepSplits s.2 s'.2 := by
  simp only [handleIndustryLinksStep] at h
  split at h
  · split at h
    · obtain ⟨g1, hrw, h2⟩ := bindE_eq_ok h
      obtain ⟨g2, htc, h3⟩ := bindE_eq_ok h2
      injection h3 with h3
      have hs : s'.2 = g2 := by
        rw [← h3]
      rw [hs]
      exact keepSplits_trans (rewireLoop_keepSplits i _ s.2 g1 hrw)
        (keepSplits_of_contEq (industryTakeFromTransferContainer_cont htc))
    · obtain ⟨g1, htcl, h2⟩ := bindE_eq_ok h
      obtain ⟨g2, hrw, h3⟩ := bindE_eq_ok h2
      obtain ⟨g3, htc, h4⟩ := bindE_eq_ok h3
      injection h4 with h4
      have hs : s'.2 = g3 := by
        rw [← h4]
      rw [hs]
      refine keepSplits_trans (keepSplits_of_contEq ?_)
        (keepSplits_trans (rewireLoop_keepSplits i _ g1 g2 hrw)
          (keepSplits_of_contEq (industryTakeFromTransferContainer_cont htc)))
      exact (tcUnitsLoop_cont _ _ _ g1 htcl).trans rfl
  · injection h with h
    have hs : s'.2 = s.2 := by
      rw [← h]
    rw [hs]
    exact keepSplits_refl _

theorem handleIndustryLinksGo_keepSplits :
    ∀ (idxs : List Nat) (s s' : ItemDatabase × FactoryGraph),
      handleIndustryLinksGo idxs s = .ok s' → KeepSplits s.2 s'.2 := by
  intro idxs
  induction idxs with
  | nil =>
    intro s s' h
    injection h with h
    subst h
    exact keepSplits_refl _
  | cons i rest ih =>
    intro s s' h
    simp only [handleIndustryLinksGo] at h
    obtain ⟨s1, hstep, hrest⟩ := bindE_eq_ok h
    exact keepSplits_trans (handleIndustryLinksStep_keepSplits hstep) (ih s1 s' hrest)

/-- C10: in every graph buildFactory returns normally, every storage node
marked split has outgoing link count exactly one, not merely at most one: the
validator bounds it by one, and it is at least one because the synthesizer
takes from every split container it creates, the Byproduct Reconciler only
adds links and creates non-split containers, and the Link-Limit Resolver's
rewiring replaces a removed storage-to-fabrication link by a storage-to-relay
link on the same container. -/
theorem buildFactory_split_outgoing_exactly_one (db : ItemDatabase) (fuel : Nat)
    (reqs : List Requirement) (g' : FactoryGraph) (db2 : ItemDatabase)
    (h : buildFactory db fuel reqs = .ok (g', db2)) :
    ∀ c ∈ g'.containers, c.isSplit = true → c.outgoingLinkCount = 1 := by
  unfold buildFactory at h
  obtain ⟨g1, hreq, h2⟩ := bindE_eq_ok h
  obtain ⟨g2, hhb, h3⟩ := bindE_eq_ok h2
  obtain ⟨s, hhil, h4⟩ := bindE_eq_ok h3
  obtain ⟨u, hsan, h5⟩ := bindE_eq_ok h4
  injection h5 with h5
  rw [Prod.mk.injEq] at h5
  obtain ⟨hg's, hdb⟩ := h5
  obtain ⟨hext1, hsp1⟩ := requirementsLoop_splits db fuel reqs emptyFactory g1 (fun _ => False)
    hreq (fun i hi _ => absurd hi (by simp [emptyFactory]))
  obtain ⟨hext2, hns2⟩ := handleByproductsGo_extNS db fuel 0 g1 g2 hhb
  have hsp2 : SplitsOkP g2 (fun _ => False) := splitsOkP_mono_ext hext2 hns2 hsp1
  have hks : KeepSplits g2 s.2 :=
    handleIndustryLinksGo_keepSplits (List.range g2.industries.length) (db, g2) s hhil
  have hvalid : GraphValid s.1 s.2 := by
    cases u
    exact (sanityCheck_ok_iff s.1 s.2).mp hsan
  subst hg's
  intro c hc hcsplit
  obtain ⟨i, hi, hgetD⟩ := mem_getD hc
  have hi2 : i < g2.containers.length := by
    rw [← hks.1]
    exact hi
  have hsplit2 : (g2.containers.getD i default).isSplit = true := by
    rw [← (hks.2 i hi2).1, hgetD]
    exact hcsplit
  have hne2 : (g2.containers.getD i default).consumers ≠ [] :=
    (hsp2 i hi2 hsplit2).elim id False.elim
  have hne : c.consumers ≠ [] := by
    rw [← hgetD]
    exact (hks.2 i hi2).2 hne2
  have hle : c.consumers.length ≤ 1 := (hvalid.1 c hc).2.2.2 hcsplit
  have hpos : 0 < c.consumers.length := List.length_pos.mpr hne
  show c.consumers.length = 1
  omega

/-- A database where item 4 needs 20 units of craftable item 5 per cycle, so
producing item 5 takes 20 fabrication nodes split across two storage nodes. -/
def db10 : ItemDatabase := ⟨[], [(4, ⟨⟨4, 1⟩, [⟨5, 20⟩], [], 1⟩), (5, ⟨⟨5, 1⟩, [], [], 1⟩)]⟩

def reqs10 : List Requirement := [⟨4, 1, 0⟩]

/-- The graph and final recipe store buildFactory produces from `reqs10`. -/
def demo10 : FactoryGraph × ItemDatabase := (buildFactory db10 20 reqs10).toOption.getD default

theorem buildFactory_split_outgoing_exactly_one_witness :
    buildFactory db10 20 reqs10 = .ok (demo10.1, demo10.2) ∧
    (∀ c ∈ demo10.1.containers, c.isSplit = true → c.outgoingLinkCount = 1) ∧
    demo10.1.containers.any (fun c => c.isSplit) = true :=
  ⟨by decide,
   buildFactory_split_outgoing_exactly_one db10 20 reqs10 demo10.1 demo10.2 (by decide),
   by decide⟩

/-! ## Round-robin assignment of fabrication nodes in the split branch -/

end DuFactory
